import Mathlib

/-!
Shallow embedding of `redgettext.py` (Cog-Creators/redgettext, version 4.0.0).

Conventions:
* Python `str` values are modelled as Lean `String` (or `List Char` inside the
  spec-string scanner, which indexes into the text); Python `int` as `Int`.
* Functions that can `raise` return `Except String` (the payload mirrors the
  exception message).  Uncaught `IndexError` in the AST walker is modelled by
  a separate error channel, since `visit_Call` only catches `ValueError`.
* Output to stderr (warnings, per-site extraction errors) is modelled as lists
  accumulated in the state.
-/

set_option linter.unusedVariables false
set_option maxRecDepth 8000

namespace Redgettext

/-- Python whitespace characters recognised by `str.strip` / `int` (ASCII). -/
def pyIsSpaceChar (c : Char) : Bool :=
  c = ' ' || c = '\t' || c = '\n' || c = '\r' || c = '\x0b' || c = '\x0c'

/-- `str.strip()` (ASCII whitespace). -/
def pyStrip (s : String) : String :=
  String.mk (((s.data.dropWhile pyIsSpaceChar).reverse.dropWhile pyIsSpaceChar).reverse)

/-- `str.lstrip()` (ASCII whitespace). -/
def pyLstrip (s : String) : String :=
  String.mk (s.data.dropWhile pyIsSpaceChar)

/-- `pre.isPrefixOf s` on the character lists: kernel-friendly
`str.startswith(pre)`. -/
def strStartsWith (s pre : String) : Bool :=
  pre.data.isPrefixOf s.data

/-- `"\\n".join(parts)` via character lists. -/
def joinNl (parts : List String) : String :=
  String.mk (List.intercalate ['\n'] (parts.map String.data))

/-- Value of a string of decimal digits. -/
def digitsVal (cs : List Char) : Nat :=
  cs.foldl (fun a c => 10 * a + (c.toNat - 48)) 0

/-- `int(text)` as used by `parse_int`: optional surrounding whitespace, an
optional sign, then one or more ASCII decimal digits.  (Numeric-literal
underscores and non-ASCII digits are not modelled.)  `none` models the
`ValueError` re-raised by `parse_int` as `"... is not a valid integer."`. -/
def pyInt (cs0 : List Char) : Option Int :=
  match ((cs0.dropWhile pyIsSpaceChar).reverse.dropWhile pyIsSpaceChar).reverse with
  | [] => none
  | c :: ds =>
    if c = '-' then if ds ≠ [] ∧ ds.all Char.isDigit then some (-(digitsVal ds : Int)) else none
    else if c = '+' then if ds ≠ [] ∧ ds.all Char.isDigit then some (digitsVal ds) else none
    else if (c :: ds).all Char.isDigit then some (digitsVal (c :: ds)) else none

/-- `text.rfind(c, None, stop)` / `text.rindex(c, None, stop)`: the largest
index `i < stop` with `cs[i] = c` (`none` models `-1` / `ValueError`). -/
def rfindChar (cs : List Char) (c : Char) : Nat → Option Nat
  | 0 => none
  | n + 1 => if cs.get? n = some c then some n else rfindChar cs c n

theorem rfindChar_lt {cs : List Char} {c : Char} :
    ∀ {stop i : Nat}, rfindChar cs c stop = some i → i < stop := by
  intro stop
  induction stop with
  | zero => intro i h; simp [rfindChar] at h
  | succ n ih =>
    intro i h
    unfold rfindChar at h
    split at h
    · cases h; omega
    · exact Nat.lt_succ_of_lt (ih h)

/-- `KeywordInfo` (a `NamedTuple` in the source).  Argument indices are 0-based
`Int`s exactly as stored by the Python code. -/
structure KeywordInfo where
  keyword : String
  arg_singular : Int := 0
  arg_plural : Option Int := none
  arg_context : Option Int := none
  total_arg_count : Option Int := none
  comment : String := ""
deriving DecidableEq, Repr

/-- `KeywordInfo.max_arg_number`: `max(arg_singular, arg_plural or 0, arg_context or 0)`.
(`x or 0` agrees with `Option.getD 0` on integers.) -/
def KeywordInfo.max_arg_number (ki : KeywordInfo) : Int :=
  max ki.arg_singular (max (ki.arg_plural.getD 0) (ki.arg_context.getD 0))

/-- Accumulator of the backward scan in `KeywordInfo.from_spec`. -/
structure SpecAcc where
  comments : List (List Char) := []
  arg_singular : Option Int := none
  arg_plural : Option Int := none
  arg_context : Option Int := none
  total_arg_count : Option Int := none
deriving DecidableEq, Repr

/-- `start_pos` of the number branches: `text.rfind(",", None, pos) + 1`
(0 when there is no comma). -/
def fsStart (ci : List Char) (pos0 : Int) : Nat :=
  ((rfindChar ci ',' (pos0 - 1).toNat).map (fun i => i + 1)).getD 0

theorem fsStart_le (ci : List Char) (pos0 : Int) : fsStart ci pos0 ≤ (pos0 - 1).toNat := by
  unfold fsStart
  rcases h : rfindChar ci ',' (pos0 - 1).toNat with _ | i
  · simp
  · have := rfindChar_lt h
    simp [Option.map, Option.getD]
    omega

/-- The `while (pos := pos - 1) >= 0:` loop of `KeywordInfo.from_spec`,
scanning `arg_info` right to left.  `pos0` is the value of `pos` before the
decrement at the top of the loop. -/
def fromSpecLoop (ci : List Char) (pos0 : Int) (acc : SpecAcc) : Except String SpecAcc :=
  if pos0 - 1 < 0 then .ok acc
  else
    match ci.get? (pos0 - 1).toNat with
    | none => .error "index out of range"
    | some ch =>
      if ch = '\x22' then
        match hq : rfindChar ci '\x22' (pos0 - 1).toNat with
        | none => .error "Could not find starting quote of a comment string."
        | some q =>
          if ((q + 1 : Int) - 2) ≥ 0 ∧ ci.get? ((q + 1 : Int) - 2).toNat ≠ some ',' then
            .error "Expected a comma before the starting quote."
          else
            fromSpecLoop ci ((q + 1 : Int) - 2)
              { acc with comments := acc.comments ++
                  [(ci.drop (q + 1)).take ((pos0 - 1).toNat - (q + 1))] }
      else if ch = 't' then
        if acc.total_arg_count.isSome then
          .error "Total argument count can only be specified once."
        else
          match pyInt ((ci.drop (fsStart ci pos0)).take ((pos0 - 1).toNat - fsStart ci pos0))
            with
          | none => .error "is not a valid integer."
          | some n =>
            fromSpecLoop ci ((fsStart ci pos0 : Int) - 1) { acc with total_arg_count := some n }
      else if ch = 'c' then
        if acc.arg_context.isSome then
          .error "There can only be one context argument specified."
        else
          match pyInt ((ci.drop (fsStart ci pos0)).take ((pos0 - 1).toNat - fsStart ci pos0))
            with
          | none => .error "is not a valid integer."
          | some n =>
            fromSpecLoop ci ((fsStart ci pos0 : Int) - 1) { acc with arg_context := some (n - 1) }
      else
        match pyInt ((ci.drop (fsStart ci pos0)).take ((pos0 - 1).toNat + 1 - fsStart ci pos0))
          with
        | none => .error "is not a valid integer."
        | some n =>
          match acc.arg_singular with
          | none =>
            fromSpecLoop ci ((fsStart ci pos0 : Int) - 1) { acc with arg_singular := some (n - 1) }
          | some s =>
            match acc.arg_plural with
            | none =>
              fromSpecLoop ci ((fsStart ci pos0 : Int) - 1)
                { acc with arg_plural := some s, arg_singular := some (n - 1) }
            | some _ => .error "There cannot be more than two normal arguments specified."
termination_by (pos0 + 1).toNat
decreasing_by
  all_goals
    first
    | (have hqlt := rfindChar_lt hq; omega)
    | (have hfs := fsStart_le ci pos0; omega)
    | (simp only [Option.some.injEq]; omega)
    | (simp; omega)

/-- `"\n".join(reversed(comments))`. -/
def joinRevComments (comments : List (List Char)) : String :=
  joinNl ((comments.reverse).map String.mk)

/-- `KeywordInfo.from_spec`.  `Except.error` models a raised `ValueError`. -/
def from_spec (keyword_spec : String) : Except String KeywordInfo :=
  let cs := keyword_spec.data
  let keyword := String.mk (cs.takeWhile (· ≠ ':'))
  let arg_info := (cs.dropWhile (· ≠ ':')).drop 1
  if arg_info = [] then .ok { keyword := keyword }
  else
    match fromSpecLoop arg_info (arg_info.length : Int) {} with
    | .error e => .error e
    | .ok acc =>
      match acc.arg_singular with
      | none =>
        .error "A singular form argument needs to be specified when providing an argument specification after the colon."
      | some s =>
        if (match acc.arg_plural with | some p => decide (p < 0) | none => false : Bool) then
          .error "The specified argument number for plural form argument is invalid. Argument numbers start from 1."
        else if s < 0 then
          .error "The specified argument number for singular form argument is invalid. Argument numbers start from 1."
        else if (match acc.arg_context with | some c => decide (c < 0) | none => false : Bool) then
          .error "The specified argument number for context argument is invalid. Argument numbers start from 1."
        else
          let args := [s] ++ acc.arg_plural.toList ++ acc.arg_context.toList
          if ¬ args.Nodup then
            .error "The same argument number cannot be used for multiple argument types."
          else
            let ret : KeywordInfo :=
              { keyword := keyword, arg_singular := s, arg_plural := acc.arg_plural,
                arg_context := acc.arg_context, total_arg_count := acc.total_arg_count,
                comment := joinRevComments acc.comments }
            match acc.total_arg_count with
            | none => .ok ret
            | some t =>
              if t < 1 then .error "The total argument count cannot be lower than 1."
              else if t ≤ ret.max_arg_number then
                .error "The total argument count cannot be lower than any of the specified argument numbers."
              else .ok ret

/-- The sort key used by `parse_keyword_specs`:
`key=lambda ki: (ki.total_arg_count is None, ki.total_arg_count)` — specs with
a total-argument-count discriminator first, in ascending discriminator order,
then specs without one. -/
def specLe (a b : KeywordInfo) : Prop :=
  match a.total_arg_count, b.total_arg_count with
  | some i, some j => i ≤ j
  | some _, none => True
  | none, some _ => False
  | none, none => True

instance : DecidableRel specLe := fun a b => by
  unfold specLe
  rcases a.total_arg_count with _ | i <;> rcases b.total_arg_count with _ | j <;>
    simp <;> infer_instance

instance : IsTotal KeywordInfo specLe :=
  ⟨fun a b => by
    unfold specLe
    rcases a.total_arg_count with _ | i <;> rcases b.total_arg_count with _ | j <;> simp
    exact Int.le_total i j⟩

instance : IsTrans KeywordInfo specLe :=
  ⟨fun a b c hab hbc => by
    unfold specLe at *
    rcases ha : a.total_arg_count with _ | i <;> rcases hb : b.total_arg_count with _ | j <;>
      rcases hc : c.total_arg_count with _ | k <;> simp only [ha, hb, hc] at * <;> try trivial
    exact Int.le_trans hab hbc⟩

/-- `sorted(keywords, key=...)` in `parse_keyword_specs`. -/
def sortSpecs (l : List KeywordInfo) : List KeywordInfo :=
  List.insertionSort specLe l

/-- One step of the loop of `parse_keyword_specs`: add one parsed spec to the
keyword table (a dict of sets in the source; here an association list in
insertion order — the final per-keyword order is fixed by the sort, whose key
is injective on each bucket).  Membership in the Python set uses
`KeywordInfo.__eq__`, which compares only `(keyword, total_arg_count)`. -/
def addSpec (parsed : List (String × List KeywordInfo)) (ki : KeywordInfo) :
    Except String (List (String × List KeywordInfo)) :=
  match parsed.find? (fun kv => kv.1 == ki.keyword) with
  | none => .ok (parsed ++ [(ki.keyword, [ki])])
  | some kv =>
    if kv.2.any (fun k => k.total_arg_count == ki.total_arg_count) then
      .error (match ki.total_arg_count with
        | none => "A keyword with no total argument count has been specified more than once."
        | some _ => "A keyword with a total argument count has been specified more than once.")
    else
      .ok (parsed.map (fun kv0 => if kv0.1 == ki.keyword then (kv0.1, kv0.2 ++ [ki]) else kv0))

/-- `parse_keyword_specs`. -/
def parse_keyword_specs (keyword_specs : List String) :
    Except String (List (String × List KeywordInfo)) := do
  let parsed ← keyword_specs.foldlM
    (fun parsed spec => do addSpec parsed (← from_spec spec)) []
  .ok (parsed.map (fun kv => (kv.1, sortSpecs kv.2)))

def DEFAULT_KEYWORD_SPECS : List String := ["_:1,1t", "gettext_noop:1,1t"]

/-! ## Catalog aggregator (`POTFileManager` / polib entries) -/

/-- One occurrence, `(str(current_infile), lineno)`. -/
abbrev Occurrence := String × Nat

/-- Python tuple comparison on `(file, line)` pairs (strings compared by code
points, which is what the Lean lexicographic `String` order does). -/
def occLe (a b : Occurrence) : Prop :=
  a.1 < b.1 ∨ (a.1 = b.1 ∧ a.2 ≤ b.2)

instance : DecidableRel occLe := fun a b => by unfold occLe; infer_instance

instance : IsTotal Occurrence occLe :=
  ⟨fun a b => by
    unfold occLe
    rcases lt_trichotomy a.1 b.1 with h | h | h
    · exact Or.inl (Or.inl h)
    · rcases Nat.le_total a.2 b.2 with h2 | h2
      · exact Or.inl (Or.inr ⟨h, h2⟩)
      · exact Or.inr (Or.inr ⟨h.symm, h2⟩)
    · exact Or.inr (Or.inl h)⟩

instance : IsTrans Occurrence occLe :=
  ⟨fun a b c hab hbc => by
    unfold occLe at *
    rcases hab with h | ⟨h, h2⟩ <;> rcases hbc with h' | ⟨h', h2'⟩
    · exact Or.inl (h.trans h')
    · exact Or.inl (h'.symm ▸ h)
    · exact Or.inl (h ▸ h')
    · exact Or.inr ⟨h.trans h', h2.trans h2'⟩⟩

/-- `entry.occurrences.sort()` (the Python sort; stability is irrelevant here
because equal tuples are identical). -/
def sortOccs (l : List Occurrence) : List Occurrence :=
  List.insertionSort occLe l

/-- A `polib.POEntry` as used by this program.  An absent plural is the empty
string (the polib default), an absent context is `none` (`msgctxt = msgctxt or
None` normalises the empty string to `None`). -/
structure POEntry where
  msgid : String
  msgid_plural : String := ""
  msgctxt : Option String := none
  comment : String := ""
  occurrences : List Occurrence := []
  flags : List String := []
deriving DecidableEq, Repr

/-- Stderr warnings emitted by `POTFileManager.add_entry` (modelled
structurally rather than as formatted text). -/
inductive PotWarning where
  | emptyMsgid (occurrence : Occurrence)
  | pluralMismatch (msgid : String) (singular_occurrence plural_occurrence : Occurrence)
deriving DecidableEq, Repr

/-- The current pot file plus the warnings printed while filling it. -/
structure PotState where
  entries : List POEntry := []
  warnings : List PotWarning := []
deriving DecidableEq, Repr

/-- `self.current_potfile.find(msgid, msgctxt=msgctxt)`.  polib scans entries
in order and matches on `msgid` and on `msgctxt` (the argument is never
`False` here); under the program invariant that `(msgid, msgctxt)` pairs
are unique this is the first exact match. -/
def find_entry (entries : List POEntry) (msgid : String) (msgctxt : Option String) :
    Option POEntry :=
  entries.find? (fun e => e.msgid == msgid && e.msgctxt == msgctxt)

/-- Replace the first element satisfying `p` (the entry that the polib `find`
returned, which `add_entry` then mutates in place). -/
def updateFirst {α : Type} (p : α → Bool) (f : α → α) : List α → List α
  | [] => []
  | e :: es => if p e then f e :: es else e :: updateFirst p f es

/-- `msgctxt = msgctxt or None`. -/
def normalize_ctxt : Option String → Option String
  | some c => if c = "" then none else some c
  | none => none

/-- The in-place mutation `add_entry` performs on an existing entry:
adopt the plural form if the mismatch branch fired and the entry lacked one,
merge the comment, adopt flags if empty, then append the occurrence and
re-sort the occurrence list. -/
def entry_update (mismatch : Bool) (msgid_plural comment : String) (flags : List String)
    (occurrence : Occurrence) (e : POEntry) : POEntry :=
  let e1 := if mismatch ∧ e.msgid_plural = "" then { e with msgid_plural := msgid_plural }
            else e
  let e2 := if e1.comment = "" then { e1 with comment := comment }
            else if comment ≠ "" then { e1 with comment := e1.comment ++ "\n" ++ comment }
            else e1
  let e3 := if e2.flags = [] then { e2 with flags := flags } else e2
  { e3 with occurrences := sortOccs (e3.occurrences ++ [occurrence]) }

/-- `POTFileManager.add_entry` (the current potfile is modelled as always
set; the `RuntimeError` branch for a missing potfile is unreachable in the
program, which always calls `set_current_file` first). -/
def add_entry (infile : String) (st : PotState) (msgid : String)
    (msgid_plural0 : Option String) (msgctxt0 : Option String)
    (comment0 : String) (lineno : Nat) (is_docstring : Bool) : PotState :=
  let occurrence : Occurrence := (infile, lineno)
  if msgid = "" then
    { st with warnings := st.warnings ++ [.emptyMsgid occurrence] }
  else
    let msgid_plural := msgid_plural0.getD ""
    let msgctxt := normalize_ctxt msgctxt0
    let comment := comment0
    let flags : List String := if is_docstring then ["docstring"] else []
    match find_entry st.entries msgid msgctxt with
    | none =>
      { st with entries := st.entries ++
          [{ msgid := msgid, msgid_plural := msgid_plural, msgctxt := msgctxt,
             comment := comment, occurrences := [occurrence], flags := flags }] }
    | some entry =>
      let mismatch : Bool := (entry.msgid_plural == "") != (msgid_plural == "")
      let warnings :=
        if mismatch then
          if entry.msgid_plural ≠ "" then
            st.warnings ++
              [.pluralMismatch msgid occurrence (entry.occurrences.headD ("", 0))]
          else
            st.warnings ++
              [.pluralMismatch msgid (entry.occurrences.headD ("", 0)) occurrence]
        else st.warnings
      { st with
          entries := updateFirst (fun e => e.msgid == msgid && e.msgctxt == msgctxt)
            (entry_update mismatch msgid_plural comment flags occurrence) st.entries,
          warnings := warnings }

/-! ## Options -/

/-- `Options` with the keyword table already parsed (`parse_keyword_specs`
runs in `Options.__init__` and its failure aborts startup). -/
structure Options where
  omit_empty : Bool := false
  keywords : List (String × List KeywordInfo) := []
  comment_tag : String := "Translators: "
  docstrings : Bool := false
  cmd_docstrings : Bool := false
  relative_to_cwd : Bool := false
  output_dir : String := "locales"
  output_filename : String := "messages.pot"
deriving DecidableEq, Repr

/-- `Options.__init__`: parse the keyword specs (propagating the
`ValueError`) and left-strip the comment tag. -/
def Options.build (keyword_specs : List String) (comment_tag : String := "Translators: ")
    (docstrings : Bool := false) (cmd_docstrings : Bool := false)
    (omit_empty : Bool := false) (relative_to_cwd : Bool := false) : Except String Options := do
  let kws ← parse_keyword_specs keyword_specs
  .ok { omit_empty := omit_empty, keywords := kws, comment_tag := pyLstrip comment_tag,
        docstrings := docstrings, cmd_docstrings := cmd_docstrings,
        relative_to_cwd := relative_to_cwd }

/-! ## Python AST (the fragment the extractor inspects) -/

/-- The value of an `ast.Constant`.  Only the distinction "string" vs
"anything else" matters to `get_literal_string`; byte strings are kept
separate because the spec calls them out. -/
inductive PyConst where
  | str (s : String)
  | bytes (s : String)
  | other
deriving DecidableEq, Repr

/-- Expressions.  `keywords` of a call holds only the argument *values*
(the source never reads the keyword names: it only tests `if node.keywords:`
and recurses into the child nodes).  `*x` spreads appear as `starred` inside
`args`, exactly as in the Python AST; `f"..."` is `joinedStr` containing
`formattedValue` parts. -/
inductive Expr where
  | constant (value : PyConst) (lineno : Nat)
  | name (id : String) (lineno : Nat)
  | attribute (value : Expr) (attr : String) (lineno : Nat)
  | call (func : Expr) (args : List Expr) (keywords : List Expr) (lineno : Nat)
  | starred (value : Expr) (lineno : Nat)
  | joinedStr (values : List Expr) (lineno : Nat)
  | formattedValue (value : Expr) (lineno : Nat)

/-- Statements (the node kinds with dedicated visitors, plus a catch-all
whose children are expressions).  Field order of children matches the AST:
`body` precedes `decorator_list`. -/
inductive Stmt where
  | exprStmt (value : Expr) (lineno : Nat)
  | functionDef (name : String) (body : List Stmt) (decorator_list : List Expr) (lineno : Nat)
  | asyncFunctionDef (name : String) (body : List Stmt) (decorator_list : List Expr) (lineno : Nat)
  | classDef (name : String) (body : List Stmt) (decorator_list : List Expr) (lineno : Nat)
  | otherStmt (children : List Expr) (lineno : Nat)

/-- A string-literal `ast.Constant` node: its value and source line. -/
structure StrNode where
  value : String
  lineno : Nat
deriving DecidableEq, Repr

/-- `MessageExtractor.get_literal_string`: `type(node) is ast.Constant and
isinstance(node.value, str)`. -/
def get_literal_string : Expr → Option StrNode
  | .constant (.str s) lineno => some ⟨s, lineno⟩
  | _ => none

/-- `MessageExtractor.get_docstring_node`: the first body statement must be a
bare expression whose value is a plain string literal. -/
def get_docstring_node : List Stmt → Option StrNode
  | .exprStmt v _ :: _ => get_literal_string v
  | _ => none

/-- `MessageExtractor.get_keyword_info`, returning `none` for the raised
`ValueError` ("no matching argument specification"). -/
def get_keyword_info : List KeywordInfo → Nat → Option KeywordInfo
  | [], _ => none
  | ki :: rest, nargs =>
    match ki.total_arg_count with
    | some t => if (nargs : Int) = t then some ki else get_keyword_info rest nargs
    | none =>
      if (nargs : Int) < ki.max_arg_number then get_keyword_info rest nargs else some ki

/-- Python list indexing `args[n]` (negative indices count from the end);
`none` is an `IndexError`. -/
def pyIndex (args : List Expr) (n : Int) : Option Expr :=
  if 0 ≤ n then args.get? n.toNat
  else if (-n) ≤ (args.length : Int) then args.get? (args.length - (-n).toNat) else none

/-- Failures of `get_literal_string_from_call`: `typeError` is the raised
`ValueError` (caught in `visit_Call`); `indexError` is the *uncaught*
`IndexError` from `node.args[arg_number]`. -/
inductive LitErr where
  | typeError (arg_number : Int)
  | indexError (arg_number : Int)
deriving DecidableEq, Repr

/-- `MessageExtractor.get_literal_string_from_call`. -/
def get_literal_string_from_call (args : List Expr) :
    Option Int → Except LitErr (Option StrNode)
  | none => .ok none
  | some n =>
    match pyIndex args n with
    | none => .error (.indexError n)
    | some a =>
      match get_literal_string a with
      | some sn => .ok (some sn)
      | none => .error (.typeError n)

/-- The three `get_literal_string_from_call` calls of `visit_Call`, in order
(the first exception wins, as in the Python `try` block). -/
def call_literals (args : List Expr) (ki : KeywordInfo) :
    Except LitErr (Option StrNode × Option StrNode × Option StrNode) := do
  let s ← get_literal_string_from_call args (some ki.arg_singular)
  let p ← get_literal_string_from_call args ki.arg_plural
  let c ← get_literal_string_from_call args ki.arg_context
  pure (s, p, c)

/-! ## Extractor state and visitor -/

/-- Mutable state of one `MessageExtractor` run: the pending translator
comments, the current pot file (with its warnings), and the per-site errors
printed by `print_error` (modelled as `(lineno, message)`). -/
structure ExtState where
  translator_comments : List (Nat × String) := []
  pot : PotState := {}
  errors : List (Nat × String) := []
deriving DecidableEq, Repr

def pushError (st : ExtState) (lineno : Nat) (message : String) : ExtState :=
  { st with errors := st.errors ++ [(lineno, message)] }

/-- `self.translator_comments.pop(lineno, None)`. -/
def popComment : List (Nat × String) → Nat → List (Nat × String) × Option String
  | [], _ => ([], none)
  | (k, v) :: rest, key =>
    if k = key then (rest, some v)
    else
      let r := popComment rest key
      ((k, v) :: r.1, r.2)

/-- Pop several line numbers in order, collecting the comments found. -/
def popComments (tc : List (Nat × String)) : List Nat → List (Nat × String) × List String
  | [] => (tc, [])
  | k :: ks =>
    let r := popComment tc k
    let rest := popComments r.1 ks
    (rest.1, (r.2.toList) ++ rest.2)

/-- `MessageExtractor.add_entry` (forwarding to `POTFileManager.add_entry`).
`node_plural and node_plural.value` / `node_context and node_context.value`
map an absent node to `None`. -/
def ext_add_entry (infile : String) (st : ExtState) (node : StrNode)
    (node_plural node_context : Option StrNode) (comment : String)
    (starting_lineno : Nat) (is_docstring : Bool) : ExtState :=
  { st with pot := (add_entry infile st.pot node.value (node_plural.map (·.value))
      (node_context.map (·.value)) comment starting_lineno is_docstring) }

/-- The keyword-table lookup at the top of `visit_Call` (bare name, or the
final attribute of a dotted access; any other callee is skipped). -/
def func_keywords (opts : Options) : Expr → Option (List KeywordInfo)
  | .name id _ => (opts.keywords.find? (fun kv => kv.1 == id)).map (·.2)
  | .attribute _ attr _ => (opts.keywords.find? (fun kv => kv.1 == attr)).map (·.2)
  | _ => none

/-- Everything `visit_Call` does *before* its final `generic_visit`:
registration check, keyword-argument check, overload resolution, literal
resolution, comment attachment, and the entry forward.  The `Except Int`
error is the uncaught `IndexError` (payload: the offending argument index),
which aborts the whole run. -/
def visit_Call_pre (opts : Options) (infile : String) (st : ExtState)
    (f : Expr) (args : List Expr) (kws : List Expr) (lineno : Nat) : Except Int ExtState :=
  match func_keywords opts f with
  | none => .ok st
  | some kwlist =>
    match kws with
    | _ :: _ =>
      .ok (pushError st lineno "Seen unexpected keyword arguments in gettext call")
    | [] =>
      match get_keyword_info kwlist args.length with
      | none =>
        .ok (pushError st lineno
          "The gettext call does not match any set argument specification.")
      | some ki =>
        match call_literals args ki with
        | .error (.indexError n) => .error n
        | .error (.typeError n) =>
          .ok (pushError st lineno
            ("Seen unexpected type for argument " ++ toString (n + 1) ++ " in gettext call"))
        | .ok (sN, pN, cN) =>
          match sN with
          | none => .ok st  -- unreachable: the singular index is always requested
          | some sNode =>
            let linenos := lineno ::
              (([some sNode, pN, cN].filterMap id).map (fun n => n.lineno))
            let r := popComments st.translator_comments linenos
            let comments := r.2 ++ (if ki.comment ≠ "" then [ki.comment] else [])
            .ok (ext_add_entry infile { st with translator_comments := r.1 } sNode pN cN
              (joinNl comments) lineno false)

mutual

/-- `ast.NodeVisitor.visit` on expressions: `visit_Call` for calls,
`generic_visit` (recursion into children, in AST field order) otherwise. -/
def visitExpr (opts : Options) (infile : String) (st : ExtState) : Expr → Except Int ExtState
  | .constant _ _ => .ok st
  | .name _ _ => .ok st
  | .attribute v _ _ => visitExpr opts infile st v
  | .starred v _ => visitExpr opts infile st v
  | .formattedValue v _ => visitExpr opts infile st v
  | .joinedStr vs _ => visitExprList opts infile st vs
  | .call f args kws lineno =>
    match visit_Call_pre opts infile st f args kws lineno with
    | .error n => .error n
    | .ok st1 =>
      match visitExpr opts infile st1 f with
      | .error n => .error n
      | .ok st2 =>
        match visitExprList opts infile st2 args with
        | .error n => .error n
        | .ok st3 => visitExprList opts infile st3 kws

def visitExprList (opts : Options) (infile : String) (st : ExtState) :
    List Expr → Except Int ExtState
  | [] => .ok st
  | e :: es =>
    match visitExpr opts infile st e with
    | .error n => .error n
    | .ok st1 => visitExprList opts infile st1 es

end

def CLASS_DECORATOR_NAMES : List String := ["cog_i18n"]
def FUNCTION_DECORATOR_NAMES : List String := ["command", "group"]

/-- The decorator scan of `handle_class_or_function`: only decorators that
are calls count, matched on a bare name or the final attribute. -/
def decorator_matches (names : List String) : Expr → Bool
  | .call (.name id _) _ _ _ => names.contains id
  | .call (.attribute _ attr _) _ _ _ => names.contains attr
  | _ => false

/-- `MessageExtractor.handle_class_or_function` (pure: it only ever calls
`add_entry`). -/
def handle_class_or_function (opts : Options) (infile : String) (st : ExtState)
    (is_class : Bool) (body : List Stmt) (decorators : List Expr) : ExtState :=
  let extract : ExtState :=
    match get_docstring_node body with
    | some lit => ext_add_entry infile st lit none none "" lit.lineno true
    | none => st
  if opts.docstrings then extract
  else if opts.cmd_docstrings then
    let names := if is_class then CLASS_DECORATOR_NAMES else FUNCTION_DECORATOR_NAMES
    if decorators.any (decorator_matches names) then extract else st
  else st

mutual

/-- `visit` on statements: dedicated visitors for class/function definitions,
`generic_visit` otherwise (an `ast.Expr` statement just visits its value). -/
def visitStmt (opts : Options) (infile : String) (st : ExtState) : Stmt → Except Int ExtState
  | .exprStmt v _ => visitExpr opts infile st v
  | .functionDef _ body decs _ =>
    match visitStmtList opts infile (handle_class_or_function opts infile st false body decs)
        body with
    | .error n => .error n
    | .ok st1 => visitExprList opts infile st1 decs
  | .asyncFunctionDef _ body decs _ =>
    match visitStmtList opts infile (handle_class_or_function opts infile st false body decs)
        body with
    | .error n => .error n
    | .ok st1 => visitExprList opts infile st1 decs
  | .classDef _ body decs _ =>
    match visitStmtList opts infile (handle_class_or_function opts infile st true body decs)
        body with
    | .error n => .error n
    | .ok st1 => visitExprList opts infile st1 decs
  | .otherStmt children _ => visitExprList opts infile st children

def visitStmtList (opts : Options) (infile : String) (st : ExtState) :
    List Stmt → Except Int ExtState
  | [] => .ok st
  | s :: ss =>
    match visitStmt opts infile st s with
    | .error n => .error n
    | .ok st1 => visitStmtList opts infile st1 ss

end

/-- `visit_Module`: in docstring mode, extract the module docstring (flagged
as such, at the line of the literal itself), then `generic_visit` the body. -/
def visit_Module (opts : Options) (infile : String) (st : ExtState) (body : List Stmt) :
    Except Int ExtState :=
  if opts.docstrings then
    let st :=
      match get_docstring_node body with
      | some lit => ext_add_entry infile st lit none none "" lit.lineno true
      | none => st
    visitStmtList opts infile st body
  else
    visitStmtList opts infile st body

/-! ## Comment collector -/

/-- `MessageExtractor.COMMENT_RE` (`[\\t ]*(#(?P<comment>.*))?`, fullmatched):
`none` for a code line, `some none` for a whitespace-only line,
`some (some text)` for a comment line with `text` after the `#`. -/
def matchCommentLine (line : String) : Option (Option String) :=
  match line.data.dropWhile (fun c => c = ' ' || c = '\t') with
  | [] => some none
  | c :: cs => if c = '#' then some (some (String.mk cs)) else none

/-- The line loop of `MessageExtractor.collect_comments`.  `buf` is
`current_comment`, `acc` the `translator_comments` dict (insertion-ordered,
keys distinct because line numbers strictly increase). -/
def collect_comments_go (tag : String) : Nat → List String → List String →
    List (Nat × String) → List (Nat × String)
  | _, [], _, acc => acc
  | lineno, line :: rest, buf, acc =>
    match matchCommentLine line with
    | some none => collect_comments_go tag (lineno + 1) rest buf acc
    | some (some c0) =>
      let c := pyStrip c0
      if !buf.isEmpty || strStartsWith c tag then
        collect_comments_go tag (lineno + 1) rest (buf ++ [c]) acc
      else
        collect_comments_go tag (lineno + 1) rest buf acc
    | none =>
      if !buf.isEmpty then
        collect_comments_go tag (lineno + 1) rest []
          (acc ++ [(lineno, joinNl buf)])
      else
        collect_comments_go tag (lineno + 1) rest [] acc

/-- `MessageExtractor.collect_comments` over the source, given as its list of
lines (`source.splitlines()`), numbered from 1. -/
def collect_comments (tag : String) (lines : List String) : List (Nat × String) :=
  collect_comments_go tag 1 lines [] []

/-- Declarative restatement of the collector, following the spec text: keep
*all* stripped comments of the current segment; when a code line flushes, the
recorded block is the segment from its first tag-prefixed comment onward
(earlier comments were never collected), joined by newlines and keyed by the
number of that code line; nothing is recorded at end of input. -/
def collect_comments_spec_go (tag : String) : Nat → List String → List String →
    List (Nat × String) → List (Nat × String)
  | _, [], _, acc => acc
  | lineno, line :: rest, seg, acc =>
    match matchCommentLine line with
    | some none => collect_comments_spec_go tag (lineno + 1) rest seg acc
    | some (some c0) =>
      collect_comments_spec_go tag (lineno + 1) rest (seg ++ [pyStrip c0]) acc
    | none =>
      let block := seg.dropWhile (fun c => !strStartsWith c tag)
      if !block.isEmpty then
        collect_comments_spec_go tag (lineno + 1) rest []
          (acc ++ [(lineno, joinNl block)])
      else
        collect_comments_spec_go tag (lineno + 1) rest [] acc

def collect_comments_spec (tag : String) (lines : List String) : List (Nat × String) :=
  collect_comments_spec_go tag 1 lines [] []

/-! ## Per-file pipeline and the pot-file manager -/

/-- `MessageExtractor.extract_messages` on one parsed module: collect the
comments, visit the tree, then report the line numbers of the translator
comments never consumed (`"unused translator comment"`).  The `Except Int`
error is the uncaught `IndexError` crash. -/
def extract_messages (opts : Options) (infile : String) (pot : PotState)
    (lines : List String) (body : List Stmt) : Except Int (ExtState × List Nat) :=
  match visit_Module opts infile
      { translator_comments := collect_comments opts.comment_tag lines, pot := pot } body with
  | .error n => .error n
  | .ok st => .ok (st, st.translator_comments.map (fun kv => kv.1))

/-- `Path(path).parent` for the simple relative path strings used here. -/
def parentDir (path : String) : String :=
  if path.data.contains '/' then
    String.mk (((path.data.reverse.dropWhile (fun c => c ≠ '/')).drop 1).reverse)
  else "."

/-- `str(dir / rest)` for the same simple paths (`Path()` and `Path(".")`
both render children without a leading component). -/
def joinPath (dir rest : String) : String :=
  if dir = "." || dir = "" then rest else dir ++ "/" ++ rest

/-- The output path computed by `POTFileManager.set_current_file`. -/
def outfileFor (opts : Options) (path : String) : String :=
  let current_dir := if opts.relative_to_cwd then "" else parentDir path
  joinPath (joinPath current_dir opts.output_dir) opts.output_filename

/-- `POTFileManager`: the per-output-path catalogs (insertion-ordered) and
the current output key. -/
structure ManagerState where
  potfiles : List (String × PotState) := []
  current_outfile : Option String := none
deriving DecidableEq, Repr

/-- `POTFileManager.set_current_file` (metadata is constant under a fixed
clock and is not modelled).  `current_outfile` models the key of the catalog
that `current_potfile` aliases: the Python method re-points
`current_potfile` only when the computed output path is new, so when an
already-seen output path recurs after a different catalog was created the
pointer stays on the previously current catalog and subsequent entries land
there. -/
def set_current_file (opts : Options) (mgr : ManagerState) (path : String) : ManagerState :=
  let out := outfileFor opts path
  if (mgr.potfiles.find? (fun kv => kv.1 == out)).isSome then
    mgr
  else
    { potfiles := mgr.potfiles ++ [(out, {})], current_outfile := some out }

/-- One input file: its path, its raw source lines, and its parsed module. -/
structure FileInput where
  path : String
  lines : List String
  body : List Stmt

/-- The per-file step of `main`: select the current pot file, run the
extractor on it, store the result back.  (The unused-translator-comment
report goes to stderr and is dropped here.) -/
def processFile (opts : Options) (mgr : ManagerState) (fi : FileInput) :
    Except Int ManagerState :=
  let mgr := set_current_file opts mgr fi.path
  match mgr.current_outfile with
  | none => .ok mgr  -- unreachable: set_current_file always sets it
  | some out =>
    let pot := ((mgr.potfiles.find? (fun kv => kv.1 == out)).map (fun kv => kv.2)).getD {}
    match extract_messages opts fi.path pot fi.lines fi.body with
    | .error n => .error n
    | .ok (st, _unused) =>
      .ok { mgr with potfiles :=
        mgr.potfiles.map (fun kv => if kv.1 == out then (kv.1, st.pot) else kv) }

/-- The file loop of `main`. -/
def processFiles (opts : Options) (files : List FileInput) : Except Int ManagerState :=
  files.foldlM (fun mgr fi => processFile opts mgr fi) {}

/-- Sort key of `POTFileManager.write`:
`potfile.sort(key=lambda e: e.occurrences[0])`. -/
def entryLe (a b : POEntry) : Prop :=
  occLe (a.occurrences.headD ("", 0)) (b.occurrences.headD ("", 0))

instance : DecidableRel entryLe := fun a b => by unfold entryLe; infer_instance

instance : IsTotal POEntry entryLe :=
  ⟨fun a b => @IsTotal.total _ occLe _ _ _⟩

instance : IsTrans POEntry entryLe :=
  ⟨fun a b c hab hbc => @IsTrans.trans _ occLe _ _ _ _ hab hbc⟩

/-- The entry sort at write time (the Python stable sort; `insertionSort` is
stable for the lifted key order). -/
def sortEntries (l : List POEntry) : List POEntry :=
  List.insertionSort entryLe l

/-- `POTFileManager.write`, up to serialisation: which catalogs are written
(empty ones are skipped under `--omit-empty`) and their entries in final
order.  The emitted `.pot` text is a function of this value and the constant
metadata. -/
def writeResult (opts : Options) (mgr : ManagerState) : List (String × List POEntry) :=
  mgr.potfiles.filterMap (fun kv =>
    if kv.2.entries.isEmpty && opts.omit_empty then none
    else some (kv.1, sortEntries kv.2.entries))

/-! ## Supporting lemmas -/

theorem mem_sortOccs {a : Occurrence} {l : List Occurrence} : a ∈ sortOccs l ↔ a ∈ l :=
  (List.perm_insertionSort occLe l).mem_iff

theorem sorted_sortOccs (l : List Occurrence) : (sortOccs l).Sorted occLe :=
  List.sorted_insertionSort occLe l

/-- The `(msgid, msgctxt)` identity of an entry. -/
def entryKey (e : POEntry) : String × Option String := (e.msgid, e.msgctxt)

/-- The program invariant that entry identities are unique within a catalog. -/
def EntryKeysUnique (es : List POEntry) : Prop := (es.map entryKey).Nodup

theorem entry_update_msgid (m : Bool) (p c : String) (f : List String) (o : Occurrence)
    (e : POEntry) : (entry_update m p c f o e).msgid = e.msgid := by
  simp only [entry_update]
  split_ifs <;> rfl

theorem entry_update_msgctxt (m : Bool) (p c : String) (f : List String) (o : Occurrence)
    (e : POEntry) : (entry_update m p c f o e).msgctxt = e.msgctxt := by
  simp only [entry_update]
  split_ifs <;> rfl

theorem entry_update_occurrences (m : Bool) (p c : String) (f : List String) (o : Occurrence)
    (e : POEntry) :
    (entry_update m p c f o e).occurrences = sortOccs (e.occurrences ++ [o]) := by
  simp only [entry_update]
  split_ifs <;> rfl

theorem entry_update_plural_of_ne (m : Bool) (p c : String) (f : List String) (o : Occurrence)
    (e : POEntry) (h : e.msgid_plural ≠ "") :
    (entry_update m p c f o e).msgid_plural = e.msgid_plural := by
  simp only [entry_update]
  have : ¬(m ∧ e.msgid_plural = "") := fun hc => h hc.2
  rw [if_neg this]
  split_ifs <;> rfl

theorem updateFirst_map {α β : Type} (p : α → Bool) (f : α → α) (g : α → β)
    (hf : ∀ x, g (f x) = g x) : ∀ l : List α, (updateFirst p f l).map g = l.map g := by
  intro l
  induction l with
  | nil => rfl
  | cons e es ih =>
    simp only [updateFirst]
    split
    · simp [hf]
    · simp [ih]

theorem find?_updateFirst {α : Type} (p : α → Bool) (f : α → α) :
    ∀ {l : List α} {e : α}, l.find? p = some e → p (f e) = true →
      (updateFirst p f l).find? p = some (f e) := by
  intro l
  induction l with
  | nil => intro e h; simp at h
  | cons x xs ih =>
    intro e h hf
    simp only [updateFirst]
    by_cases hx : p x = true
    · rw [if_pos hx]
      rw [List.find?_cons_of_pos _ hx] at h
      cases h
      rw [List.find?_cons_of_pos _ hf]
    · rw [if_neg hx]
      rw [List.find?_cons_of_neg _ (by simpa using hx)] at h
      rw [List.find?_cons_of_neg _ (by simpa using hx)]
      exact ih h hf

theorem filter_of_unique_find {es : List POEntry} {m : String} {c : Option String} {e : POEntry}
    (hu : EntryKeysUnique es) (hf : find_entry es m c = some e) :
    es.filter (fun x => x.msgid == m && x.msgctxt == c) = [e] := by
  induction es with
  | nil => simp [find_entry] at hf
  | cons x xs ih =>
    unfold find_entry at hf
    unfold EntryKeysUnique at hu
    simp only [List.map_cons, List.nodup_cons] at hu
    by_cases hx : (x.msgid == m && x.msgctxt == c) = true
    · simp only [List.find?_cons, hx] at hf
      rw [Option.some_inj] at hf
      subst hf
      rw [List.filter_cons, if_pos hx]
      have hxm : x.msgid = m ∧ x.msgctxt = c := by
        simpa using hx
      have hnil : xs.filter (fun y => y.msgid == m && y.msgctxt == c) = [] := by
        rw [List.filter_eq_nil_iff]
        intro y hy hcy
        have hym : y.msgid = m ∧ y.msgctxt = c := by simpa using hcy
        apply hu.1
        rw [List.mem_map]
        refine ⟨y, hy, ?_⟩
        unfold entryKey
        rw [hym.1, hym.2, hxm.1, hxm.2]
      rw [hnil]
    · have hx0 : (x.msgid == m && x.msgctxt == c) = false := by
        simpa using hx
      simp only [List.find?_cons, hx0] at hf
      rw [List.filter_cons, if_neg hx]
      exact ih hu.2 hf

theorem find_entry_append_right {es : List POEntry} {m : String} {c : Option String}
    (h : find_entry es m c = none) (e : POEntry) (he : (e.msgid == m && e.msgctxt == c) = true) :
    find_entry (es ++ [e]) m c = some e := by
  unfold find_entry at *
  rw [List.find?_append, h]
  simp [he]

/-! ## C9 -/

/-- **C9**: a contribution with an empty singular text is discarded with a
warning: the catalog entries are completely unchanged (so are all their
occurrences, comments and flags) and exactly the empty-msgid warning is
emitted. -/
theorem claim_C9 (infile : String) (st : PotState) (plural ctxt : Option String)
    (comment : String) (lineno : Nat) (is_doc : Bool) :
    (add_entry infile st "" plural ctxt comment lineno is_doc).entries = st.entries ∧
    (add_entry infile st "" plural ctxt comment lineno is_doc).warnings =
      st.warnings ++ [.emptyMsgid (infile, lineno)] := by
  constructor <;> simp [add_entry]

/-- Unfolding `add_entry` when the message is new. -/
theorem add_entry_of_find_none {infile : String} {pot : PotState} {s : String}
    {pl0 ctx0 : Option String} {cm : String} {l : Nat} {d : Bool}
    (hs : s ≠ "") (h : find_entry pot.entries s (normalize_ctxt ctx0) = none) :
    add_entry infile pot s pl0 ctx0 cm l d =
      { pot with entries := pot.entries ++
          [{ msgid := s, msgid_plural := pl0.getD "", msgctxt := normalize_ctxt ctx0,
             comment := cm, occurrences := [(infile, l)],
             flags := if d then ["docstring"] else [] }] } := by
  simp only [add_entry, if_neg hs, h]

/-- Unfolding the entry list of `add_entry` when the message already exists. -/
theorem add_entry_entries_of_find_some {infile : String} {pot : PotState} {s : String}
    {pl0 ctx0 : Option String} {cm : String} {l : Nat} {d : Bool} {entry : POEntry}
    (hs : s ≠ "") (h : find_entry pot.entries s (normalize_ctxt ctx0) = some entry) :
    (add_entry infile pot s pl0 ctx0 cm l d).entries =
      updateFirst (fun e => e.msgid == s && e.msgctxt == normalize_ctxt ctx0)
        (entry_update ((entry.msgid_plural == "") != (pl0.getD "" == "")) (pl0.getD "") cm
          (if d then ["docstring"] else []) (infile, l)) pot.entries := by
  simp only [add_entry, if_neg hs, h]

/-- `add_entry` emits no warning when both the existing entry and the new
contribution agree on having (or not having) a plural form. -/
theorem add_entry_warnings_of_agree {infile : String} {pot : PotState} {s : String}
    {pl0 ctx0 : Option String} {cm : String} {l : Nat} {d : Bool} {entry : POEntry}
    (hs : s ≠ "") (h : find_entry pot.entries s (normalize_ctxt ctx0) = some entry)
    (hagree : (entry.msgid_plural == "") = (pl0.getD "" == "")) :
    (add_entry infile pot s pl0 ctx0 cm l d).warnings = pot.warnings := by
  simp only [add_entry, if_neg hs, h]
  have : ((entry.msgid_plural == "") != (pl0.getD "" == "")) = false := by
    rw [hagree]; simp
  simp [this]

/-- The `(msgid, msgctxt)` identity of the updated entry still satisfies the
lookup predicate. -/
theorem entry_update_pred {m : Bool} {p c : String} {f : List String} {o : Occurrence}
    {e : POEntry} {s : String} {ctx : Option String}
    (h : (e.msgid == s && e.msgctxt == ctx) = true) :
    ((entry_update m p c f o e).msgid == s && (entry_update m p c f o e).msgctxt == ctx)
      = true := by
  rw [entry_update_msgid, entry_update_msgctxt]
  exact h

/-- `updateFirst` with a key-preserving update keeps the key list, hence
uniqueness of keys. -/
theorem EntryKeysUnique.updateFirst {es : List POEntry} (hu : EntryKeysUnique es)
    (p : POEntry → Bool) (m : Bool) (pl c : String) (f : List String) (o : Occurrence) :
    EntryKeysUnique (Redgettext.updateFirst p (entry_update m pl c f o) es) := by
  unfold EntryKeysUnique at *
  rw [updateFirst_map]
  · exact hu
  · intro x
    unfold entryKey
    rw [entry_update_msgid, entry_update_msgctxt]

/-- The entry returned by the polib `find` matches the lookup key. -/
theorem find_entry_pred {es : List POEntry} {m : String} {c : Option String} {e : POEntry}
    (h : find_entry es m c = some e) : (e.msgid == m && e.msgctxt == c) = true := by
  unfold find_entry at h
  have h2 := List.find?_some h
  exact h2

/-! ## C10 -/

/-- **C10**: when the found entry already has a non-empty plural and the new
contribution supplies a (different) non-empty plural, `add_entry` keeps the
existing plural text, silently discards the new one (no warning — the
mismatch branch fires only when exactly one side lacks a plural), and still
appends the occurrence and re-sorts the occurrence list. -/
theorem claim_C10 (infile : String) (pot : PotState) (s p cm : String) (ctx0 : Option String)
    (l : Nat) (d : Bool) (entry : POEntry)
    (hs : s ≠ "") (hp : p ≠ "")
    (hfind : find_entry pot.entries s (normalize_ctxt ctx0) = some entry)
    (hplural : entry.msgid_plural ≠ "") (hdiff : p ≠ entry.msgid_plural) :
    (add_entry infile pot s (some p) ctx0 cm l d).warnings = pot.warnings ∧
    (find_entry (add_entry infile pot s (some p) ctx0 cm l d).entries s
        (normalize_ctxt ctx0)).map POEntry.msgid_plural = some entry.msgid_plural ∧
    (find_entry (add_entry infile pot s (some p) ctx0 cm l d).entries s
        (normalize_ctxt ctx0)).map POEntry.occurrences =
      some (sortOccs (entry.occurrences ++ [(infile, l)])) := by
  have hagree : (entry.msgid_plural == "") = ((some p).getD "" == "") := by
    simp [hplural, hp]
  have hpred : (entry.msgid == s && entry.msgctxt == normalize_ctxt ctx0) = true :=
    find_entry_pred hfind
  have hfind2 :
      find_entry (add_entry infile pot s (some p) ctx0 cm l d).entries s
          (normalize_ctxt ctx0) =
        some (entry_update ((entry.msgid_plural == "") != ((some p).getD "" == ""))
          ((some p).getD "") cm (if d then ["docstring"] else []) (infile, l) entry) := by
    rw [add_entry_entries_of_find_some hs hfind]
    exact find?_updateFirst _ _ hfind (entry_update_pred hpred)
  refine ⟨add_entry_warnings_of_agree hs hfind hagree, ?_, ?_⟩
  · rw [hfind2]
    simp only [Option.map_some']
    rw [entry_update_plural_of_ne _ _ _ _ _ _ hplural]
  · rw [hfind2]
    simp only [Option.map_some']
    rw [entry_update_occurrences]

/-- Witness for C10 at a concrete catalog. -/
theorem claim_C10_witness :
    ({ entries := [{ msgid := "a", msgid_plural := "p0",
                     occurrences := [("f.py", 1)] }] } : PotState) ≠ {} ∧
    (add_entry "f.py"
        { entries := [{ msgid := "a", msgid_plural := "p0", occurrences := [("f.py", 1)] }] }
        "a" (some "p1") none "" 7 false).warnings = [] ∧
    (find_entry (add_entry "f.py"
        { entries := [{ msgid := "a", msgid_plural := "p0", occurrences := [("f.py", 1)] }] }
        "a" (some "p1") none "" 7 false).entries "a"
        (normalize_ctxt none)).map POEntry.msgid_plural = some "p0" := by
  have h := claim_C10 "f.py"
    { entries := [{ msgid := "a", msgid_plural := "p0", occurrences := [("f.py", 1)] }] }
    "a" "p1" "" none 7 false
    { msgid := "a", msgid_plural := "p0", occurrences := [("f.py", 1)] }
    (by decide) (by decide) (by decide) (by decide) (by decide)
  exact ⟨by decide, h.1, h.2.1⟩

/-! ## C6 -/

/-- **C6**: contributing the same `(singular, context)` message twice leaves
exactly one entry for that identity, whose occurrence list contains both
`(file, line)` occurrences and is sorted by `(file, line)`. -/
theorem claim_C6 (infile : String) (pot : PotState) (s cm1 cm2 : String) (ctx0 : Option String)
    (l1 l2 : Nat) (hs : s ≠ "") (hu : EntryKeysUnique pot.entries) :
    ∃ e, (add_entry infile (add_entry infile pot s none ctx0 cm1 l1 false)
            s none ctx0 cm2 l2 false).entries.filter
          (fun x => x.msgid == s && x.msgctxt == normalize_ctxt ctx0) = [e] ∧
      (infile, l1) ∈ e.occurrences ∧ (infile, l2) ∈ e.occurrences ∧
      e.occurrences.Sorted occLe := by
  set ctx := normalize_ctxt ctx0 with hctx
  rcases hfind0 : find_entry pot.entries s ctx with _ | entry0
  · -- first contribution creates the entry
    have h1 := @add_entry_of_find_none infile pot _ none _ cm1 l1 false hs hfind0
    set E1 : POEntry :=
      { msgid := s, msgid_plural := (none : Option String).getD "", msgctxt := ctx,
        comment := cm1, occurrences := [(infile, l1)], flags := [] } with hE1
    have hE1pred : (E1.msgid == s && E1.msgctxt == ctx) = true := by
      rw [hE1]; simp
    have hfind1 : find_entry (add_entry infile pot s none ctx0 cm1 l1 false).entries s ctx
        = some E1 := by
      rw [h1]
      exact find_entry_append_right hfind0 E1 hE1pred
    have hu1 : EntryKeysUnique (add_entry infile pot s none ctx0 cm1 l1 false).entries := by
      rw [h1]
      unfold EntryKeysUnique at *
      rw [List.map_append, List.nodup_append]
      refine ⟨hu, by simp, ?_⟩
      intro k hk hk2
      simp only [List.map_cons, List.map_nil, List.mem_singleton] at hk2
      subst hk2
      rw [List.mem_map] at hk
      obtain ⟨y, hy, hky⟩ := hk
      have := List.find?_eq_none.mp hfind0 y hy
      apply this
      have hkey : y.msgid = E1.msgid ∧ y.msgctxt = E1.msgctxt := by
        constructor
        · exact congrArg Prod.fst hky
        · exact congrArg Prod.snd hky
      rw [hE1] at hkey
      simp only at hkey
      simp [hkey.1, hkey.2]
    set E2 := entry_update ((E1.msgid_plural == "") != ((none : Option String).getD "" == ""))
      ((none : Option String).getD "") cm2 [] (infile, l2) E1 with hE2
    have h2 := @add_entry_entries_of_find_some infile _ _ none _ cm2 l2 false _ hs hfind1
    have hfind2 : find_entry (add_entry infile (add_entry infile pot s none ctx0 cm1 l1 false)
        s none ctx0 cm2 l2 false).entries s ctx = some E2 := by
      rw [h2]
      exact find?_updateFirst _ _ hfind1 (entry_update_pred hE1pred)
    refine ⟨E2, ?_, ?_, ?_, ?_⟩
    · have hu2 : EntryKeysUnique (add_entry infile (add_entry infile pot s none ctx0 cm1 l1
          false) s none ctx0 cm2 l2 false).entries := by
        rw [h2]
        exact hu1.updateFirst _ _ _ _ _ _
      exact filter_of_unique_find hu2 hfind2
    · rw [hE2, entry_update_occurrences, mem_sortOccs]
      rw [hE1]
      simp
    · rw [hE2, entry_update_occurrences, mem_sortOccs]
      simp
    · rw [hE2, entry_update_occurrences]
      exact sorted_sortOccs _
  · -- the entry already existed before both contributions
    have hpred0 : (entry0.msgid == s && entry0.msgctxt == ctx) = true :=
      find_entry_pred hfind0
    set E1 := entry_update ((entry0.msgid_plural == "") != ((none : Option String).getD "" == ""))
      ((none : Option String).getD "") cm1 [] (infile, l1) entry0 with hE1
    have h1 := @add_entry_entries_of_find_some infile _ _ none _ cm1 l1 false _ hs hfind0
    have hE1pred : (E1.msgid == s && E1.msgctxt == ctx) = true := entry_update_pred hpred0
    have hfind1 : find_entry (add_entry infile pot s none ctx0 cm1 l1 false).entries s ctx
        = some E1 := by
      rw [h1]
      exact find?_updateFirst _ _ hfind0 hE1pred
    have hu1 : EntryKeysUnique (add_entry infile pot s none ctx0 cm1 l1 false).entries := by
      rw [h1]
      exact hu.updateFirst _ _ _ _ _ _
    set E2 := entry_update ((E1.msgid_plural == "") != ((none : Option String).getD "" == ""))
      ((none : Option String).getD "") cm2 [] (infile, l2) E1 with hE2
    have h2 := @add_entry_entries_of_find_some infile _ _ none _ cm2 l2 false _ hs hfind1
    have hfind2 : find_entry (add_entry infile (add_entry infile pot s none ctx0 cm1 l1 false)
        s none ctx0 cm2 l2 false).entries s ctx = some E2 := by
      rw [h2]
      exact find?_updateFirst _ _ hfind1 (entry_update_pred hE1pred)
    refine ⟨E2, ?_, ?_, ?_, ?_⟩
    · have hu2 : EntryKeysUnique (add_entry infile (add_entry infile pot s none ctx0 cm1 l1
          false) s none ctx0 cm2 l2 false).entries := by
        rw [h2]
        exact hu1.updateFirst _ _ _ _ _ _
      exact filter_of_unique_find hu2 hfind2
    · rw [hE2, entry_update_occurrences, mem_sortOccs]
      rw [hE1, entry_update_occurrences]
      rw [List.mem_append, mem_sortOccs]
      left
      simp
    · rw [hE2, entry_update_occurrences, mem_sortOccs]
      simp
    · rw [hE2, entry_update_occurrences]
      exact sorted_sortOccs _

/-- Witness for C6: `_("a")` at line 1 and again at line 3 of the same file,
starting from an empty catalog. -/
theorem claim_C6_witness :
    ∃ e, (add_entry "file.py" (add_entry "file.py" {} "a" none none "" 1 false)
            "a" none none "" 3 false).entries.filter
          (fun x => x.msgid == "a" && x.msgctxt == normalize_ctxt none) = [e] ∧
      ("file.py", 1) ∈ e.occurrences ∧ ("file.py", 3) ∈ e.occurrences ∧
      e.occurrences.Sorted occLe :=
  claim_C6 "file.py" {} "a" "" "" none 1 3 (by decide) (by simp [EntryKeysUnique])

/-! ## C3 -/

/-- **C3 counterexample**: the claim says any call to a registered keyword
using a variadic-spread argument is rejected (error reported, nothing
extracted).  But `*x` spreads live in `node.args`, not `node.keywords`, so
for the registered keyword spec `foo:1` the call `foo("a", *x)` is happily
extracted: one catalog entry is created and no error is reported. -/
theorem claim_C3_counterexample :
    visitExpr { keywords := [("foo", [{ keyword := "foo" }])] } "f.py" {}
        (.call (.name "foo" 1) [.constant (.str "a") 1, .starred (.name "x" 1) 1] [] 1) =
      .ok { pot := { entries := [{ msgid := "a", occurrences := [("f.py", 1)] }] } } := by
  rfl

/-- **C3 (amended)**: for a call to a registered keyword, any *keyword-style*
argument (named argument or `**` double-spread, both recorded in the
`keywords` field of the AST call node) causes rejection: exactly one error is
reported, no catalog entry is created from the call itself, and traversal
still recurses into the children (callee, positional arguments, keyword
argument values).  A `*`-spread positional argument does not by itself
trigger this rejection — it merely counts toward the positional arity. -/
theorem claim_C3_amended (opts : Options) (infile : String) (st : ExtState)
    (f : Expr) (args : List Expr) (kw0 : Expr) (kws : List Expr) (lineno : Nat)
    (kwlist : List KeywordInfo) (hreg : func_keywords opts f = some kwlist) :
    visitExpr opts infile st (.call f args (kw0 :: kws) lineno) =
      (match visitExpr opts infile
          (pushError st lineno "Seen unexpected keyword arguments in gettext call") f with
        | .error n => .error n
        | .ok st2 =>
          match visitExprList opts infile st2 args with
          | .error n => .error n
          | .ok st3 => visitExprList opts infile st3 (kw0 :: kws)) := by
  simp [visitExpr, visit_Call_pre, hreg]

/-- Witness for the amended C3: `_("a", b="c")` under the default `_`
keyword. -/
theorem claim_C3_amended_witness :
    visitExpr { keywords := [("_", [{ keyword := "_", total_arg_count := some 1 }])] } "f.py" {}
        (.call (.name "_" 1) [.constant (.str "a") 1] [.constant (.str "c") 1] 1) =
      .ok { errors := [(1, "Seen unexpected keyword arguments in gettext call")] } :=
  (claim_C3_amended { keywords := [("_", [{ keyword := "_", total_arg_count := some 1 }])] }
    "f.py" {} (.name "_" 1) [.constant (.str "a") 1] (.constant (.str "c") 1) [] 1
    [{ keyword := "_", total_arg_count := some 1 }] rfl).trans (by rfl)

/-! ## C2 -/

/-- **C2 (code-bug exhibit)**: the claim says a call to a registered keyword
whose positional arity matches no candidate spec (an undiscriminated spec
matches only argument counts of at least its highest referenced index plus
one), or whose required argument is not a literal, contributes zero catalog
entries and exactly one reported error, after which traversal simply
continues — the run never aborts.  The code diverges at the arity boundary:
for the spec `foo:1` and the zero-argument call `foo()` no spec matches
under the claimed rule, yet the visit aborts with an uncaught `IndexError`
(the `.error 0` outcome) and in particular never reaches any continuing
`.ok` state.  Away from that boundary the code does behave as claimed: when
its own resolution finds no spec, or the required argument raises the
non-literal `ValueError`, the visit equals pushing exactly one error and
then the ordinary child recursion on an otherwise unchanged state. -/
theorem claim_C2 :
    (¬ ((0 : Int) ≥ ({ keyword := "foo" } : KeywordInfo).max_arg_number + 1) ∧
      visitExpr { keywords := [("foo", [{ keyword := "foo" }])] } "f.py" {}
          (.call (.name "foo" 1) [] [] 1) = .error 0 ∧
      ∀ st' : ExtState,
        visitExpr { keywords := [("foo", [{ keyword := "foo" }])] } "f.py" {}
          (.call (.name "foo" 1) [] [] 1) ≠ .ok st') ∧
    (∀ (opts : Options) (infile : String) (st : ExtState)
        (f : Expr) (args : List Expr) (lineno : Nat)
        (kwlist : List KeywordInfo), func_keywords opts f = some kwlist →
      (get_keyword_info kwlist args.length = none →
        visitExpr opts infile st (.call f args [] lineno) =
          (match visitExpr opts infile (pushError st lineno
              "The gettext call does not match any set argument specification.") f with
           | .error n => .error n
           | .ok st2 =>
             match visitExprList opts infile st2 args with
             | .error n => .error n
             | .ok st3 => visitExprList opts infile st3 [])) ∧
      (∀ ki n, get_keyword_info kwlist args.length = some ki →
        call_literals args ki = .error (.typeError n) →
        visitExpr opts infile st (.call f args [] lineno) =
          (match visitExpr opts infile (pushError st lineno
              ("Seen unexpected type for argument " ++ toString (n + 1) ++
                " in gettext call")) f with
           | .error m => .error m
           | .ok st2 =>
             match visitExprList opts infile st2 args with
             | .error m => .error m
             | .ok st3 => visitExprList opts infile st3 []))) := by
  refine ⟨⟨by decide, rfl, ?_⟩, ?_⟩
  · intro st' h
    exact Except.noConfusion
      (show (Except.error 0 : Except Int ExtState) = .ok st' from h)
  · intro opts infile st f args lineno kwlist hreg
    constructor
    · intro h
      simp [visitExpr, visit_Call_pre, hreg, h]
    · intro ki n hki hlit
      simp [visitExpr, visit_Call_pre, hreg, hki, hlit]

/-- Witness for C2: under the default `_:1,1t` keyword, `_("x", "y")` (wrong
arity) and `_(x)` (non-literal argument) each yield exactly one error, no
entry, and continued traversal. -/
theorem claim_C2_witness :
    (visitExpr { keywords := [("_", [{ keyword := "_", total_arg_count := some 1 }])] } "f.py"
        {} (.call (.name "_" 1) [.constant (.str "x") 1, .constant (.str "y") 1] [] 1) =
      .ok { errors :=
        [(1, "The gettext call does not match any set argument specification.")] }) ∧
    (visitExpr { keywords := [("_", [{ keyword := "_", total_arg_count := some 1 }])] } "f.py"
        {} (.call (.name "_" 1) [.name "x" 1] [] 1) =
      .ok { errors := [(1, "Seen unexpected type for argument 1 in gettext call")] }) := by
  constructor
  · exact ((claim_C2.2 { keywords := [("_", [{ keyword := "_", total_arg_count := some 1 }])] }
      "f.py" {} (.name "_" 1) [.constant (.str "x") 1, .constant (.str "y") 1] 1
      [{ keyword := "_", total_arg_count := some 1 }] rfl).1 rfl).trans (by rfl)
  · exact ((claim_C2.2 { keywords := [("_", [{ keyword := "_", total_arg_count := some 1 }])] }
      "f.py" {} (.name "_" 1) [.name "x" 1] 1
      [{ keyword := "_", total_arg_count := some 1 }] rfl).2
      { keyword := "_", total_arg_count := some 1 } 0 rfl rfl).trans (by rfl)

/-! ## C1 -/

/-- **C1 (code-bug exhibit)**: the overload-resolution claim says an
undiscriminated spec matches only when the argument count is at least one
more than its highest referenced index.  The code instead accepts
`len(args) >= max_arg_number`: for the keyword spec `foo:1` (singular index
0, no discriminator) and the call `foo()` with zero arguments,
`get_keyword_info` *selects* the spec although the claimed condition
`0 >= max + 1` fails, and the subsequent `node.args[0]` raises an uncaught
`IndexError` (the `.error 0` outcome) that aborts the run instead of the
claimed reported-and-recovered extraction error. -/
theorem claim_C1 :
    from_spec "foo:1" = .ok { keyword := "foo" } ∧
    get_keyword_info [{ keyword := "foo" }] 0 = some { keyword := "foo" } ∧
    ¬ ((0 : Int) ≥ ({ keyword := "foo" } : KeywordInfo).max_arg_number + 1) ∧
    visitExpr { keywords := [("foo", [{ keyword := "foo" }])] } "f.py" {}
        (.call (.name "foo" 1) [] [] 1) = .error 0 := by
  refine ⟨?_, rfl, by decide, rfl⟩
  simp [from_spec, fromSpecLoop, rfindChar, pyInt, digitsVal, pyIsSpaceChar, joinRevComments]
  rfl

/-! ## C7: comment collector and unused-comment reporting -/

/-- The collector loop agrees with its declarative (spec-text) restatement:
the running buffer equals the current comment segment with its untagged
prefix dropped. -/
theorem collect_go_eq_spec_go (tag : String) :
    ∀ (lines : List String) (n : Nat) (seg : List String) (acc : List (Nat × String)),
      collect_comments_go tag n lines (seg.dropWhile (fun c => !strStartsWith c tag)) acc =
        collect_comments_spec_go tag n lines seg acc := by
  intro lines
  induction lines with
  | nil => intro n seg acc; rfl
  | cons line rest ih =>
    intro n seg acc
    simp only [collect_comments_go, collect_comments_spec_go]
    rcases hm : matchCommentLine line with _ | _ | c0
    · -- code line: flush
      simp only [hm]
      cases hb : (seg.dropWhile (fun c => !strStartsWith c tag)).isEmpty
      · simp only [hb, Bool.not_false, if_pos trivial]
        exact ih _ [] _
      · simp only [hb, Bool.not_true, Bool.false_eq_true, if_false]
        exact ih _ [] _
    · simp only [hm]
      exact ih _ _ _
    · simp only [hm]
      have happ := @List.dropWhile_append _ (fun c => !strStartsWith c tag) seg [pyStrip c0]
      cases hb : (seg.dropWhile (fun c => !strStartsWith c tag)).isEmpty
      · -- buffer nonempty: comment always appended
        simp only [hb, Bool.not_false, Bool.true_or, if_pos trivial]
        have harr : (seg ++ [pyStrip c0]).dropWhile (fun c => !strStartsWith c tag) =
            seg.dropWhile (fun c => !strStartsWith c tag) ++ [pyStrip c0] := by
          rw [happ, hb]
          simp
        have := ih (n+1) (seg ++ [pyStrip c0]) acc
        rw [harr] at this
        exact this
      · have hseg : seg.dropWhile (fun c => !strStartsWith c tag) = [] :=
          List.isEmpty_iff.mp hb
        cases hst : strStartsWith (pyStrip c0) tag
        · -- empty buffer, untagged comment: skipped
          simp only [hb, hst, Bool.not_true, Bool.false_or, Bool.false_eq_true, if_false]
          have harr : (seg ++ [pyStrip c0]).dropWhile (fun c => !strStartsWith c tag) = [] := by
            rw [happ, hb]
            simp [List.dropWhile_cons, hst]
          have := ih (n+1) (seg ++ [pyStrip c0]) acc
          rw [harr] at this
          rw [hseg]
          exact this
        · -- empty buffer, tagged comment: starts a block
          simp only [hb, hst, Bool.not_true, Bool.false_or, if_pos trivial]
          have harr : (seg ++ [pyStrip c0]).dropWhile (fun c => !strStartsWith c tag) =
              [pyStrip c0] := by
            rw [happ, hb]
            simp [List.dropWhile_cons, hst]
          have := ih (n+1) (seg ++ [pyStrip c0]) acc
          rw [harr] at this
          rw [hseg]
          simpa using this


theorem popComment_sublist (tc : List (Nat × String)) (k : Nat) :
    (popComment tc k).1.Sublist tc := by
  induction tc with
  | nil => simp [popComment]
  | cons kv rest ih =>
    simp only [popComment]
    split
    · exact List.sublist_cons_self kv rest
    · exact List.Sublist.cons₂ kv ih

theorem popComments_sublist :
    ∀ (ks : List Nat) (tc : List (Nat × String)), (popComments tc ks).1.Sublist tc := by
  intro ks
  induction ks with
  | nil => intro tc; simp [popComments]
  | cons k ks ih =>
    intro tc
    simp only [popComments]
    exact (ih _).trans (popComment_sublist tc k)

/-- `visit_Call` never adds pending translator comments: it only pops them. -/
theorem visit_Call_pre_tc {opts : Options} {infile : String} {st : ExtState} {f : Expr}
    {args kws : List Expr} {ln : Nat} {st' : ExtState}
    (h : visit_Call_pre opts infile st f args kws ln = .ok st') :
    st'.translator_comments.Sublist st.translator_comments := by
  unfold visit_Call_pre at h
  rcases hfk : func_keywords opts f with _ | kwlist <;> simp only [hfk] at h
  · cases h
    exact List.Sublist.refl _
  · rcases kws with _ | ⟨kw0, kws1⟩
    · rcases hki : get_keyword_info kwlist args.length with _ | ki <;> simp only [hki] at h
      · cases h
        exact List.Sublist.refl _
      · rcases hlit : call_literals args ki with e | ⟨sN, pN, cN⟩
        · rcases e with n | n <;> simp only [hlit] at h
          · cases h
            exact List.Sublist.refl _
          · cases h
        · simp only [hlit] at h
          rcases sN with _ | sNode
          · cases h
            exact List.Sublist.refl _
          · cases h
            exact popComments_sublist _ _
    · cases h
      exact List.Sublist.refl _

/-- Expression traversal only ever removes pending translator comments. -/
theorem visitExpr_tc (opts : Options) (infile : String) (st : ExtState) (e : Expr) :
    ∀ st', visitExpr opts infile st e = .ok st' →
      st'.translator_comments.Sublist st.translator_comments := by
  refine visitExpr.induct opts infile
    (fun st e => ∀ st', visitExpr opts infile st e = .ok st' →
      st'.translator_comments.Sublist st.translator_comments)
    (fun st es => ∀ st', visitExprList opts infile st es = .ok st' →
      st'.translator_comments.Sublist st.translator_comments)
    ?_ ?_ ?_ ?_ ?_ ?_ ?_ ?_ ?_ ?_ ?_ ?_ ?_ st e
  · intro st v ln st' h
    cases h
    exact List.Sublist.refl _
  · intro st id ln st' h
    cases h
    exact List.Sublist.refl _
  · intro st v attr ln ih st' h
    exact ih st' h
  · intro st v ln ih st' h
    exact ih st' h
  · intro st v ln ih st' h
    exact ih st' h
  · intro st vs ln ih st' h
    exact ih st' h
  · intro st f args kws ln n hpre st' h
    simp only [visitExpr, hpre] at h
    cases h
  · intro st f args kws ln st1 hpre n h1 ih st' h
    simp only [visitExpr, hpre, h1] at h
    cases h
  · intro st f args kws ln st1 hpre st2 h1 n h2 ih1 ih2 st' h
    simp only [visitExpr, hpre, h1, h2] at h
    cases h
  · intro st f args kws ln st1 hpre st2 h1 st3 h2 ih1 ih2 ih3 st' h
    simp only [visitExpr, hpre, h1, h2] at h
    exact ((ih3 st' h).trans ((ih2 st3 h2).trans (ih1 st2 h1))).trans
      (visit_Call_pre_tc hpre)
  · intro st st' h
    cases h
    exact List.Sublist.refl _
  · intro st e es n he ih st' h
    simp only [visitExprList, he] at h
    cases h
  · intro st e es st1 he ih1 ih2 st' h
    simp only [visitExprList, he] at h
    exact (ih2 st' h).trans (ih1 st1 he)

/-- List version of `visitExpr_tc`. -/
theorem visitExprList_tc (opts : Options) (infile : String) :
    ∀ (es : List Expr) (st st' : ExtState), visitExprList opts infile st es = .ok st' →
      st'.translator_comments.Sublist st.translator_comments := by
  intro es
  induction es with
  | nil =>
    intro st st' h
    cases h
    exact List.Sublist.refl _
  | cons e es ih =>
    intro st st' h
    simp only [visitExprList] at h
    rcases he : visitExpr opts infile st e with n | st1
    · rw [he] at h
      cases h
    · rw [he] at h
      exact (ih st1 st' h).trans (visitExpr_tc opts infile st e st1 he)

/-- `handle_class_or_function` never touches the pending comments. -/
theorem handle_tc (opts : Options) (infile : String) (st : ExtState) (ic : Bool)
    (body : List Stmt) (decs : List Expr) :
    (handle_class_or_function opts infile st ic body decs).translator_comments =
      st.translator_comments := by
  simp only [handle_class_or_function]
  rcases get_docstring_node body with _ | lit <;> split_ifs <;> rfl

/-- Statement traversal only ever removes pending translator comments. -/
theorem visitStmt_tc (opts : Options) (infile : String) (st : ExtState) (s : Stmt) :
    ∀ st', visitStmt opts infile st s = .ok st' →
      st'.translator_comments.Sublist st.translator_comments := by
  refine visitStmt.induct opts infile
    (fun st s => ∀ st', visitStmt opts infile st s = .ok st' →
      st'.translator_comments.Sublist st.translator_comments)
    (fun st ss => ∀ st', visitStmtList opts infile st ss = .ok st' →
      st'.translator_comments.Sublist st.translator_comments)
    ?_ ?_ ?_ ?_ ?_ ?_ ?_ ?_ ?_ ?_ ?_ st s
  · intro st v ln st' h
    exact visitExpr_tc opts infile st v st' h
  · intro st name body decs ln n hb ih st' h
    simp only [visitStmt, hb] at h
    cases h
  · intro st name body decs ln st1 hb ih st' h
    simp only [visitStmt, hb] at h
    refine ((visitExprList_tc opts infile decs st1 st' h).trans (ih st1 hb)).trans ?_
    rw [handle_tc]
  · intro st name body decs ln n hb ih st' h
    simp only [visitStmt, hb] at h
    cases h
  · intro st name body decs ln st1 hb ih st' h
    simp only [visitStmt, hb] at h
    refine ((visitExprList_tc opts infile decs st1 st' h).trans (ih st1 hb)).trans ?_
    rw [handle_tc]
  · intro st name body decs ln n hb ih st' h
    simp only [visitStmt, hb] at h
    cases h
  · intro st name body decs ln st1 hb ih st' h
    simp only [visitStmt, hb] at h
    refine ((visitExprList_tc opts infile decs st1 st' h).trans (ih st1 hb)).trans ?_
    rw [handle_tc]
  · intro st children ln st' h
    exact visitExprList_tc opts infile children st st' h
  · intro st st' h
    cases h
    exact List.Sublist.refl _
  · intro st s ss n hs ih st' h
    simp only [visitStmtList, hs] at h
    cases h
  · intro st s ss st1 hs ih1 ih2 st' h
    simp only [visitStmtList, hs] at h
    exact (ih2 st' h).trans (ih1 st1 hs)

/-- List version of `visitStmt_tc`. -/
theorem visitStmtList_tc (opts : Options) (infile : String) :
    ∀ (ss : List Stmt) (st st' : ExtState), visitStmtList opts infile st ss = .ok st' →
      st'.translator_comments.Sublist st.translator_comments := by
  intro ss
  induction ss with
  | nil =>
    intro st st' h
    cases h
    exact List.Sublist.refl _
  | cons s ss ih =>
    intro st st' h
    simp only [visitStmtList] at h
    rcases hs : visitStmt opts infile st s with n | st1
    · rw [hs] at h
      cases h
    · rw [hs] at h
      exact (ih st1 st' h).trans (visitStmt_tc opts infile st s st1 hs)

/-- Module traversal only ever removes pending translator comments. -/
theorem visit_Module_tc (opts : Options) (infile : String) (st : ExtState) (body : List Stmt)
    (st' : ExtState) (h : visit_Module opts infile st body = .ok st') :
    st'.translator_comments.Sublist st.translator_comments := by
  unfold visit_Module at h
  split_ifs at h
  · rcases hd : get_docstring_node body with _ | lit <;> simp only [hd] at h
    · exact visitStmtList_tc opts infile body _ _ h
    · exact visitStmtList_tc opts infile body
        (ext_add_entry infile st lit none none "" lit.lineno true) st' h
  · exact visitStmtList_tc opts infile body _ _ h

/-- **C7**: (1) the collector records exactly the blocks the spec describes —
each maximal tag-initiated comment block, joined by newlines in appearance
order, keyed by the number of the first following non-comment, non-blank
line, with the buffer cleared on every flush and trailing comments never
recorded; and (2) after traversal, the reported unused translator comments
are exactly the line-number keys of the still-pending comments, which are a
subset (in order) of the originally collected blocks — consumed keys are
removed and never reported, and pending comments are only ever removed, never
invented. -/
theorem claim_C7 :
    (∀ (tag : String) (lines : List String),
      collect_comments tag lines = collect_comments_spec tag lines) ∧
    (∀ (opts : Options) (infile : String) (pot : PotState) (lines : List String)
        (body : List Stmt) (st : ExtState) (unused : List Nat),
      extract_messages opts infile pot lines body = .ok (st, unused) →
        unused = st.translator_comments.map (fun kv => kv.1) ∧
        st.translator_comments.Sublist (collect_comments opts.comment_tag lines)) := by
  constructor
  · intro tag lines
    exact collect_go_eq_spec_go tag lines 1 [] []
  · intro opts infile pot lines body st unused h
    unfold extract_messages at h
    rcases hv : visit_Module opts infile
        { translator_comments := collect_comments opts.comment_tag lines, pot := pot } body
      with n | st0
    · rw [hv] at h
      cases h
    · rw [hv] at h
      cases h
      exact ⟨rfl, visit_Module_tc _ _ _ _ _ hv⟩

/-- Witness for C7 at a concrete source file: one tagged comment followed by
a code line, with an empty module body — the comment is collected under key 2
and reported unused. -/
theorem claim_C7_witness :
    ([2] : List Nat) = ([((2 : Nat), "Translators: hi")].map (fun kv => kv.1)) ∧
    ([((2 : Nat), "Translators: hi")] : List (Nat × String)).Sublist
      (collect_comments "Translators: " ["# Translators: hi", "x"]) :=
  claim_C7.2 { comment_tag := "Translators: " } "f.py" {} ["# Translators: hi", "x"] []
    { translator_comments := [(2, "Translators: hi")] } [2] rfl

/-! ## C8: docstring extraction -/

/-- **C8**: in docstring mode, a module, class, or function whose first body
statement is a bare expression holding a plain string literal forwards that
string as an entry flagged as a docstring (at the line of the literal
itself); a byte-string or an interpolated (formatted) string in the same
position yields no extraction at all.  The last conjunct shows the forwarded
entry really carries the `docstring` flag in the catalog. -/
theorem claim_C8 (opts : Options) (infile : String) (st : ExtState)
    (hdoc : opts.docstrings = true) :
    (∀ (s : String) (ln ln0 : Nat) (rest : List Stmt),
      visit_Module opts infile st (.exprStmt (.constant (.str s) ln) ln0 :: rest) =
        visitStmtList opts infile (ext_add_entry infile st ⟨s, ln⟩ none none "" ln true)
          (.exprStmt (.constant (.str s) ln) ln0 :: rest)) ∧
    (∀ (b : String) (ln ln0 : Nat) (rest : List Stmt),
      visit_Module opts infile st (.exprStmt (.constant (.bytes b) ln) ln0 :: rest) =
        visitStmtList opts infile st (.exprStmt (.constant (.bytes b) ln) ln0 :: rest)) ∧
    (∀ (vs : List Expr) (ln ln0 : Nat) (rest : List Stmt),
      visit_Module opts infile st (.exprStmt (.joinedStr vs ln) ln0 :: rest) =
        visitStmtList opts infile st (.exprStmt (.joinedStr vs ln) ln0 :: rest)) ∧
    (∀ (is_class : Bool) (s : String) (ln ln0 : Nat) (rest : List Stmt) (decs : List Expr),
      handle_class_or_function opts infile st is_class
          (.exprStmt (.constant (.str s) ln) ln0 :: rest) decs =
        ext_add_entry infile st ⟨s, ln⟩ none none "" ln true) ∧
    (∀ (is_class : Bool) (b : String) (ln ln0 : Nat) (rest : List Stmt) (decs : List Expr),
      handle_class_or_function opts infile st is_class
          (.exprStmt (.constant (.bytes b) ln) ln0 :: rest) decs = st) ∧
    (∀ (is_class : Bool) (vs : List Expr) (ln ln0 : Nat) (rest : List Stmt) (decs : List Expr),
      handle_class_or_function opts infile st is_class
          (.exprStmt (.joinedStr vs ln) ln0 :: rest) decs = st) ∧
    (∀ (s : String) (ln : Nat), s ≠ "" →
      (ext_add_entry infile { st with pot := {} } ⟨s, ln⟩ none none "" ln true).pot =
        ⟨[⟨s, "", none, "", [(infile, ln)], ["docstring"]⟩], []⟩) := by
  refine ⟨?_, ?_, ?_, ?_, ?_, ?_, ?_⟩
  · intro s ln ln0 rest
    simp [visit_Module, hdoc, get_docstring_node, get_literal_string]
  · intro b ln ln0 rest
    simp [visit_Module, hdoc, get_docstring_node, get_literal_string]
  · intro vs ln ln0 rest
    simp [visit_Module, hdoc, get_docstring_node, get_literal_string]
  · intro is_class s ln ln0 rest decs
    simp [handle_class_or_function, hdoc, get_docstring_node, get_literal_string]
  · intro is_class b ln ln0 rest decs
    simp [handle_class_or_function, hdoc, get_docstring_node, get_literal_string]
  · intro is_class vs ln ln0 rest decs
    simp [handle_class_or_function, hdoc, get_docstring_node, get_literal_string]
  · intro s ln hs
    simp [ext_add_entry, add_entry, find_entry, normalize_ctxt, hs]

/-- Witness for C8: module docstring `"doc"` is extracted with the docstring
flag; `b"doc"` and `f"doc"` are not. -/
theorem claim_C8_witness :
    visit_Module { docstrings := true } "f.py" {} [.exprStmt (.constant (.str "doc") 1) 1] =
      .ok ⟨[], ⟨[⟨"doc", "", none, "", [("f.py", 1)], ["docstring"]⟩], []⟩, []⟩ ∧
    visit_Module { docstrings := true } "f.py" {} [.exprStmt (.constant (.bytes "doc") 1) 1] =
      .ok {} ∧
    visit_Module { docstrings := true } "f.py" {}
        [.exprStmt (.joinedStr [.constant (.str "doc") 1] 1) 1] = .ok {} := by
  have h := claim_C8 { docstrings := true } "f.py" {} rfl
  refine ⟨?_, ?_, ?_⟩
  · exact (h.1 "doc" 1 1 []).trans (by rfl)
  · exact (h.2.1 "doc" 1 1 []).trans (by rfl)
  · exact (h.2.2.1 [.constant (.str "doc") 1] 1 1 []).trans (by rfl)

/-! ## C4: input-order (in)dependence of the written output -/

instance {ε α : Type} [DecidableEq ε] [DecidableEq α] : DecidableEq (Except ε α) := fun a b => by
  cases a <;> cases b
  case error.error e f => exact decidable_of_iff (e = f) (by simp)
  case ok.ok x y => exact decidable_of_iff (x = y) (by simp)
  all_goals exact isFalse (fun h => by cases h)

/-- The default `_` keyword (`_:1,1t`) as a parsed record. -/
def c4kw : KeywordInfo := { keyword := "_", arg_singular := 0, total_arg_count := some 1 }

/-- Options for the C4 scenario: both files write into the same catalog. -/
def c4opts : Options := { keywords := [("_", [c4kw])], relative_to_cwd := true }

def c4fileA : FileInput :=
  ⟨"a.py", ["# Translators: A", "code"],
    [.exprStmt (.call (.name "_" 2) [.constant (.str "x") 2] [] 2) 2]⟩

def c4fileB : FileInput :=
  ⟨"b.py", ["# Translators: B", "code"],
    [.exprStmt (.call (.name "_" 2) [.constant (.str "x") 2] [] 2) 2]⟩

/-- **C4 counterexample**: two input files, each contributing the same
message `"x"` with a different attached translator comment, mapped to the
same output catalog.  Processing them in the two orders yields different
written catalogs (the merged comment text is `"Translators: A\nTranslators:
B"` in one order and the reverse concatenation in the other), so the
serialized output is *not* the same for every permutation of the input file
order. -/
theorem claim_C4_counterexample :
    (processFiles c4opts [c4fileA, c4fileB]).map (writeResult c4opts) ≠
      (processFiles c4opts [c4fileB, c4fileA]).map (writeResult c4opts) := by
  decide

/-- One recorded call to `POTFileManager.add_entry`. -/
structure AddOp where
  infile : String
  msgid : String
  msgid_plural : Option String
  msgctxt : Option String
  comment : String
  lineno : Nat
  is_docstring : Bool

/-- Replay a sequence of `add_entry` calls (the only way the extractor ever
modifies a catalog). -/
def applyOps (pot : PotState) (ops : List AddOp) : PotState :=
  ops.foldl (fun pot op =>
    add_entry op.infile pot op.msgid op.msgid_plural op.msgctxt op.comment op.lineno
      op.is_docstring) pot

theorem mem_updateFirst {α : Type} {p : α → Bool} {f : α → α} :
    ∀ {l : List α} {x : α}, x ∈ updateFirst p f l → x ∈ l ∨ ∃ y ∈ l, x = f y := by
  intro l
  induction l with
  | nil => intro x h; simp [updateFirst] at h
  | cons e es ih =>
    intro x h
    simp only [updateFirst] at h
    split at h
    · rcases List.mem_cons.mp h with h1 | h1
      · exact Or.inr ⟨e, List.mem_cons_self e es, h1⟩
      · exact Or.inl (List.mem_cons_of_mem e h1)
    · rcases List.mem_cons.mp h with h1 | h1
      · exact Or.inl (h1 ▸ List.mem_cons_self e es)
      · rcases ih h1 with h2 | ⟨y, hy, hxy⟩
        · exact Or.inl (List.mem_cons_of_mem e h2)
        · exact Or.inr ⟨y, List.mem_cons_of_mem e hy, hxy⟩

/-- `add_entry` keeps every occurrence list sorted. -/
theorem add_entry_occ_sorted {infile : String} {pot : PotState} {msgid : String}
    {pl0 ctx0 : Option String} {cm : String} {l : Nat} {d : Bool}
    (h : ∀ e ∈ pot.entries, e.occurrences.Sorted occLe) :
    ∀ e ∈ (add_entry infile pot msgid pl0 ctx0 cm l d).entries,
      e.occurrences.Sorted occLe := by
  intro e he
  by_cases hm : msgid = ""
  · subst hm
    simp only [add_entry, if_pos rfl] at he
    exact h e he
  · simp only [add_entry, if_neg hm] at he
    rcases hfind : find_entry pot.entries msgid (normalize_ctxt ctx0) with _ | entry
    · rw [hfind] at he
      simp only at he
      rcases List.mem_append.mp he with h1 | h1
      · exact h e h1
      · simp only [List.mem_singleton] at h1
        subst h1
        simp [List.Sorted]
    · rw [hfind] at he
      simp only at he
      rcases mem_updateFirst he with h1 | ⟨y, hy, hxy⟩
      · exact h e h1
      · subst hxy
        rw [entry_update_occurrences]
        exact sorted_sortOccs _

/-- **C4 (amended)**: what the sorting at write time does guarantee.  Every
catalog built from `add_entry` operations has all its occurrence lists
sorted by `(file, line)`, and `write` emits, for each written catalog, a
permutation of its entries sorted by first occurrence.  (The full claim —
byte-identical serialized output for every permutation of the input files —
fails: see the counterexample; the merged translator-comment text of a
shared entry depends on the processing order.) -/
theorem claim_C4_amended (ops : List AddOp) (pot0 : PotState)
    (h0 : ∀ e ∈ pot0.entries, e.occurrences.Sorted occLe) :
    (∀ e ∈ (applyOps pot0 ops).entries, e.occurrences.Sorted occLe) ∧
    (∀ (opts : Options) (mgr : ManagerState) (out : String) (entries : List POEntry),
      (out, entries) ∈ writeResult opts mgr →
        entries.Sorted entryLe ∧
        ∃ kv ∈ mgr.potfiles, kv.1 = out ∧ entries.Perm kv.2.entries) := by
  constructor
  · induction ops generalizing pot0 with
    | nil => exact h0
    | cons op ops ih =>
      intro e he
      simp only [applyOps, List.foldl_cons] at he
      exact ih _ (add_entry_occ_sorted h0) e he
  · intro opts mgr out entries hmem
    unfold writeResult at hmem
    rcases List.mem_filterMap.mp hmem with ⟨kv, hkv, hif⟩
    split at hif
    · cases hif
    · rw [Option.some_inj] at hif
      have h1 : kv.1 = out := congrArg Prod.fst hif
      have h2 : sortEntries kv.2.entries = entries := congrArg Prod.snd hif
      subst h2
      exact ⟨List.sorted_insertionSort entryLe kv.2.entries,
        kv, hkv, h1, List.perm_insertionSort entryLe kv.2.entries⟩

/-- Witness for the amended C4: two out-of-order contributions to the same
message leave a sorted occurrence list, and a two-catalog manager writes
entry lists sorted by first occurrence. -/
theorem claim_C4_amended_witness :
    (∀ e ∈ (applyOps {} [⟨"f.py", "a", none, none, "", 5, false⟩,
        ⟨"f.py", "a", none, none, "", 2, false⟩]).entries,
      e.occurrences.Sorted occLe) ∧
    (∀ (out : String) (entries : List POEntry),
      (out, entries) ∈ writeResult {}
          ⟨[("locales/messages.pot", ⟨[⟨"b", "", none, "", [("f.py", 9)], []⟩,
             ⟨"a", "", none, "", [("f.py", 2)], []⟩], []⟩)], none⟩ →
        entries.Sorted entryLe ∧
        ∃ kv ∈ [(("locales/messages.pot" : String),
            (⟨[⟨"b", "", none, "", [("f.py", 9)], []⟩,
               ⟨"a", "", none, "", [("f.py", 2)], []⟩], []⟩ : PotState))],
          kv.1 = out ∧ entries.Perm kv.2.entries) := by
  have h := claim_C4_amended [⟨"f.py", "a", none, none, "", 5, false⟩,
    ⟨"f.py", "a", none, none, "", 2, false⟩] {} (by simp)
  exact ⟨h.1, fun out entries hm => h.2 {}
    ⟨[("locales/messages.pot", ⟨[⟨"b", "", none, "", [("f.py", 9)], []⟩,
       ⟨"a", "", none, "", [("f.py", 2)], []⟩], []⟩)], none⟩ out entries hm⟩

/-! ## C5: the keyword-spec parser -/

theorem isDigit_val {c : Char} (h : c.isDigit = true) : 48 ≤ c.toNat ∧ c.toNat ≤ 57 := by
  unfold Char.isDigit at h
  rw [Bool.and_eq_true] at h
  obtain ⟨h1, h2⟩ := h
  rw [decide_eq_true_eq] at h1 h2
  constructor
  · exact h1
  · exact h2

theorem digit_ne {c : Char} (h : c.isDigit = true) :
    c ≠ '\x22' ∧ c ≠ 't' ∧ c ≠ 'c' ∧ c ≠ ',' ∧ c ≠ '-' ∧ c ≠ '+' ∧
      pyIsSpaceChar c = false := by
  have hne : ∀ d : Char, d.isDigit = false → c ≠ d := by
    intro d hd hc
    rw [hc] at h
    rw [h] at hd
    cases hd
  refine ⟨hne _ (by decide), hne _ (by decide), hne _ (by decide), hne _ (by decide),
    hne _ (by decide), hne _ (by decide), ?_⟩
  unfold pyIsSpaceChar
  simp only [Bool.or_eq_false_iff, decide_eq_false_iff_not]
  exact ⟨⟨⟨⟨⟨hne _ (by decide), hne _ (by decide)⟩, hne _ (by decide)⟩, hne _ (by decide)⟩,
    hne _ (by decide)⟩, hne _ (by decide)⟩

/-- `int()` on a pure digit string is its decimal value. -/
theorem pyInt_digits {ds : List Char} (hne : ds ≠ []) (hd : ∀ c ∈ ds, c.isDigit = true) :
    pyInt ds = some (digitsVal ds : Int) := by
  have hnospace : ∀ c ∈ ds, pyIsSpaceChar c = false := fun c hc => (digit_ne (hd c hc)).2.2.2.2.2.2
  have hdrop : ds.dropWhile pyIsSpaceChar = ds := by
    rcases ds with _ | ⟨d, ds1⟩
    · rfl
    · rw [List.dropWhile_cons_of_neg]
      simp [hnospace d (List.mem_cons_self d ds1)]
  have hdrop2 : ds.reverse.dropWhile pyIsSpaceChar = ds.reverse := by
    rcases hr : ds.reverse with _ | ⟨d, ds1⟩
    · rfl
    · rw [List.dropWhile_cons_of_neg]
      have : d ∈ ds := by
        rw [← List.mem_reverse, hr]
        exact List.mem_cons_self d ds1
      simp [hnospace d this]
  unfold pyInt
  rw [hdrop, hdrop2, List.reverse_reverse]
  rcases ds with _ | ⟨d, ds1⟩
  · exact absurd rfl hne
  · have hd0 := hd d (List.mem_cons_self d ds1)
    have hne1 := digit_ne hd0
    simp only [if_neg hne1.2.2.2.2.1, if_neg hne1.2.2.2.2.2.1]
    rw [if_pos]
    rw [List.all_eq_true]
    intro c hc
    exact hd c hc

theorem rfindChar_append {a b : List Char} {c : Char} :
    ∀ {stop : Nat}, stop ≤ a.length → rfindChar (a ++ b) c stop = rfindChar a c stop := by
  intro stop
  induction stop with
  | zero => intro h; rfl
  | succ n ih =>
    intro h
    unfold rfindChar
    rw [List.get?_append (by omega : n < a.length)]
    split
    · rfl
    · exact ih (by omega)

theorem rfindChar_not_mem {d : List Char} {c : Char} (hc : c ∉ d) :
    ∀ {stop : Nat}, stop ≤ d.length → rfindChar d c stop = none := by
  intro stop
  induction stop with
  | zero => intro h; rfl
  | succ n ih =>
    intro h
    unfold rfindChar
    rw [if_neg, ih (by omega)]
    intro hget
    exact hc (List.get?_mem hget)

theorem rfindChar_sep {a d : List Char} {c : Char}
    (hc : ∀ k, k < d.length → d.get? k ≠ some c) :
    ∀ {j : Nat}, j ≤ d.length → rfindChar (a ++ c :: d) c (a.length + 1 + j) = some a.length := by
  intro j
  induction j with
  | zero =>
    intro h
    have : a.length + 1 + 0 = a.length + 1 := rfl
    rw [this]
    unfold rfindChar
    rw [if_pos]
    rw [List.get?_append_right (Nat.le_refl a.length)]
    simp
  | succ j ih =>
    intro h
    have harith : a.length + 1 + (j + 1) = (a.length + 1 + j) + 1 := by omega
    rw [harith]
    unfold rfindChar
    rw [if_neg, ih (by omega)]
    rw [List.get?_append_right (by omega)]
    have : a.length + 1 + j - a.length = j + 1 := by omega
    rw [this]
    simp only [List.get?_cons_succ]
    intro hget
    exact hc j (by omega) hget

theorem slice_front {a b : List Char} {s k : Nat} (h : s + k ≤ a.length) :
    ((a ++ b).drop s).take k = (a.drop s).take k := by
  rw [List.drop_append_of_le_length (by omega)]
  rw [List.take_append_of_le_length]
  rw [List.length_drop]
  omega

theorem fsStart_append {a b : List Char} {pos : Int} (h : (pos - 1).toNat ≤ a.length) :
    fsStart (a ++ b) pos = fsStart a pos := by
  unfold fsStart
  rw [rfindChar_append h]

/-- The scanner loop only reads `ci` strictly below `pos`, so a suffix beyond
`pos` is irrelevant. -/
theorem fromSpecLoop_front (b : List Char) :
    ∀ (n : Nat) (pos : Int) (a : List Char) (acc : SpecAcc),
      (pos + 1).toNat ≤ n → pos ≤ (a.length : Int) →
      fromSpecLoop (a ++ b) pos acc = fromSpecLoop a pos acc := by
  intro n
  induction n with
  | zero =>
    intro pos a acc hn hpos
    unfold fromSpecLoop
    rw [if_pos (by omega : pos - 1 < 0), if_pos (by omega : pos - 1 < 0)]
  | succ n ih =>
    intro pos a acc hn hpos
    unfold fromSpecLoop
    by_cases hneg : pos - 1 < 0
    · rw [if_pos hneg, if_pos hneg]
    · rw [if_neg hneg, if_neg hneg]
      have hp : (pos - 1).toNat < a.length := by omega
      rw [List.get?_append hp]
      rcases hch : a.get? (pos - 1).toNat with _ | ch
      · simp only [hch]
      · simp only [hch]
        by_cases hq : ch = '\x22'
        · rw [if_pos hq, if_pos hq]
          rw [rfindChar_append (by omega : (pos - 1).toNat ≤ a.length)]
          rcases hrf : rfindChar a '\x22' (pos - 1).toNat with _ | q
          · simp only [hrf]
          · simp only [hrf]
            have hq1 : q < (pos - 1).toNat := rfindChar_lt hrf
            rw [slice_front (by omega)]
            by_cases hc2 : ((q : Int) + 1 - 2) ≥ 0 ∧
                a.get? (((q : Int) + 1 - 2)).toNat ≠ some ','
            · rw [if_pos, if_pos hc2]
              obtain ⟨hge, hne2⟩ := hc2
              refine ⟨hge, ?_⟩
              rwa [List.get?_append (by omega)]
            · rw [if_neg, if_neg hc2]
              · exact ih _ _ _ (by omega) (by omega)
              · intro hcon
                obtain ⟨hge, hne2⟩ := hcon
                rw [List.get?_append (by omega)] at hne2
                exact hc2 ⟨hge, hne2⟩
        · rw [if_neg hq, if_neg hq]
          rw [fsStart_append (by omega)]
          have hfs := fsStart_le a pos
          by_cases ht : ch = 't'
          · rw [if_pos ht, if_pos ht]
            by_cases htot : acc.total_arg_count.isSome
            · rw [if_pos htot, if_pos htot]
            · rw [if_neg htot, if_neg htot]
              rw [slice_front (by omega)]
              rcases hpi : pyInt ((a.drop (fsStart a pos)).take
                  ((pos - 1).toNat - fsStart a pos)) with _ | m
              · simp only [hpi]
              · simp only [hpi]
                exact ih _ _ _ (by omega) (by omega)
          · rw [if_neg ht, if_neg ht]
            by_cases hcc : ch = 'c'
            · rw [if_pos hcc, if_pos hcc]
              by_cases hctx : acc.arg_context.isSome
              · rw [if_pos hctx, if_pos hctx]
              · rw [if_neg hctx, if_neg hctx]
                rw [slice_front (by omega)]
                rcases hpi : pyInt ((a.drop (fsStart a pos)).take
                    ((pos - 1).toNat - fsStart a pos)) with _ | m
                · simp only [hpi]
                · simp only [hpi]
                  exact ih _ _ _ (by omega) (by omega)
            · rw [if_neg hcc, if_neg hcc]
              rw [slice_front (by omega)]
              rcases hpi : pyInt ((a.drop (fsStart a pos)).take
                  ((pos - 1).toNat + 1 - fsStart a pos)) with _ | m
              · simp only [hpi]
              · simp only [hpi]
                rcases acc.arg_singular with _ | sv
                · exact ih _ _ _ (by omega) (by omega)
                · rcases acc.arg_plural with _ | pv
                  · exact ih _ _ _ (by omega) (by omega)
                  · rfl

/-! ### Token-level view of keyword-spec strings -/

/-- One token of the comma-separated argspec grammar (spec 4.1): a bare
number, a number suffixed `c`, a number suffixed `t`, or a double-quoted
comment. -/
inductive SpecTok where
  | num (ds : List Char)
  | numC (ds : List Char)
  | numT (ds : List Char)
  | comment (cs : List Char)

def tokRender : SpecTok → List Char
  | .num ds => ds
  | .numC ds => ds ++ ['c']
  | .numT ds => ds ++ ['t']
  | .comment cs => '\x22' :: (cs ++ ['\x22'])

/-- The comma-separated rendering of a token list. -/
def renderToks : List SpecTok → List Char
  | [] => []
  | [t] => tokRender t
  | t :: ts => tokRender t ++ ',' :: renderToks ts

theorem renderToks_cons (u : SpecTok) (l : List SpecTok) (h : l ≠ []) :
    renderToks (u :: l) = tokRender u ++ ',' :: renderToks l := by
  rcases l with _ | ⟨v, vs⟩
  · exact absurd rfl h
  · rfl

theorem renderToks_append (t : SpecTok) :
    ∀ (ts : List SpecTok), ts ≠ [] →
      renderToks (ts ++ [t]) = renderToks ts ++ ',' :: renderToks [t] := by
  intro ts
  induction ts with
  | nil => intro h; exact absurd rfl h
  | cons u us ih =>
    intro h
    rcases us with _ | ⟨v, vs⟩
    · rfl
    · have h2 : (v :: vs : List SpecTok) ≠ [] := by simp
      rw [List.cons_append, renderToks_cons u _ (by simp), ih h2,
        renderToks_cons u _ h2]
      simp

/-- Well-formedness of one token: numbers are non-empty digit strings,
comments contain no quote character. -/
def TokWF : SpecTok → Prop
  | .num ds => ds ≠ [] ∧ ∀ c ∈ ds, c.isDigit = true
  | .numC ds => ds ≠ [] ∧ ∀ c ∈ ds, c.isDigit = true
  | .numT ds => ds ≠ [] ∧ ∀ c ∈ ds, c.isDigit = true
  | .comment cs => ∀ k, k < cs.length → cs.get? k ≠ some '\x22'

/-- The effect of one token on the scanner accumulator, exactly as the
backward scan applies it (read right to left over the token list). -/
def applyTok (acc : SpecAcc) : SpecTok → SpecAcc
  | .num ds =>
    match acc.arg_singular, acc.arg_plural with
    | none, _ => { acc with arg_singular := some ((digitsVal ds : Int) - 1) }
    | some s, none =>
      { acc with arg_plural := some s, arg_singular := some ((digitsVal ds : Int) - 1) }
    | some _, some _ => acc
  | .numC ds => { acc with arg_context := some ((digitsVal ds : Int) - 1) }
  | .numT ds => { acc with total_arg_count := some (digitsVal ds : Int) }
  | .comment cs => { acc with comments := acc.comments ++ [cs] }

def numCount (toks : List SpecTok) : Nat :=
  (toks.filter fun t => match t with | .num _ => true | _ => false).length

def cCount (toks : List SpecTok) : Nat :=
  (toks.filter fun t => match t with | .numC _ => true | _ => false).length

def tCount (toks : List SpecTok) : Nat :=
  (toks.filter fun t => match t with | .numT _ => true | _ => false).length

def numFill (acc : SpecAcc) : Nat :=
  (if acc.arg_singular.isSome then 1 else 0) + (if acc.arg_plural.isSome then 1 else 0)

theorem fromSpecLoop_step_num (A ds : List Char) (acc : SpecAcc)
    (hne : ds ≠ []) (hdig : ∀ c ∈ ds, c.isDigit = true)
    (hstart : fsStart (A ++ ds) (((A ++ ds).length : Nat) : Int) = A.length)
    (hcap : ¬(acc.arg_singular.isSome ∧ acc.arg_plural.isSome)) :
    fromSpecLoop (A ++ ds) (((A ++ ds).length : Nat) : Int) acc =
      fromSpecLoop (A ++ ds) ((A.length : Int) - 1) (applyTok acc (.num ds)) := by
  have hd1 : 0 < ds.length := List.length_pos.mpr hne
  have hlen : (A ++ ds).length = A.length + ds.length := by simp
  have hp : (((((A ++ ds).length : Nat) : Int)) - 1).toNat = A.length + (ds.length - 1) := by
    omega
  rcases hlast : ds.get? (ds.length - 1) with _ | ch
  · rw [List.get?_eq_none] at hlast
    omega
  have hch : ch ∈ ds := List.get?_mem hlast
  have hd := digit_ne (hdig ch hch)
  have hget : (A ++ ds).get? ((((((A ++ ds).length : Nat) : Int)) - 1).toNat) = some ch := by
    rw [hp, List.get?_append_right (by omega)]
    rw [show A.length + (ds.length - 1) - A.length = ds.length - 1 by omega]
    exact hlast
  have hslice : ((A ++ ds).drop (fsStart (A ++ ds) (((A ++ ds).length : Nat) : Int))).take
      ((((((A ++ ds).length : Nat) : Int)) - 1).toNat + 1 -
        fsStart (A ++ ds) (((A ++ ds).length : Nat) : Int)) = ds := by
    rw [hstart, hp]
    rw [show A.length + (ds.length - 1) + 1 - A.length = ds.length by omega]
    rw [List.drop_left]
    exact List.take_length ds
  conv_lhs => rw [fromSpecLoop.eq_def]
  rw [if_neg (by omega)]
  simp only [hget]
  rw [if_neg hd.1, if_neg hd.2.1, if_neg hd.2.2.1]
  rw [hslice]
  rw [pyInt_digits hne hdig]
  rw [hstart]
  rcases hs : acc.arg_singular with _ | sv
  · simp only [applyTok, hs]
  · rcases hpl : acc.arg_plural with _ | pv
    · simp only [applyTok, hs, hpl]
    · exact absurd ⟨by rw [hs]; rfl, by rw [hpl]; rfl⟩ hcap

theorem fromSpecLoop_step_numT (A ds : List Char) (acc : SpecAcc)
    (hne : ds ≠ []) (hdig : ∀ c ∈ ds, c.isDigit = true)
    (hstart : fsStart (A ++ (ds ++ ['t'])) (((A ++ (ds ++ ['t'])).length : Nat) : Int) = A.length)
    (hcap : acc.total_arg_count.isSome = false) :
    fromSpecLoop (A ++ (ds ++ ['t'])) (((A ++ (ds ++ ['t'])).length : Nat) : Int) acc =
      fromSpecLoop (A ++ (ds ++ ['t'])) ((A.length : Int) - 1) (applyTok acc (.numT ds)) := by
  have hlen : (A ++ (ds ++ ['t'])).length = A.length + ds.length + 1 := by
    simp only [List.length_append, List.length_cons, List.length_nil]
    omega
  have hp : (((((A ++ (ds ++ ['t'])).length : Nat) : Int)) - 1).toNat = A.length + ds.length := by
    omega
  have hget : (A ++ (ds ++ ['t'])).get?
      ((((((A ++ (ds ++ ['t'])).length : Nat) : Int)) - 1).toNat) = some 't' := by
    rw [hp, List.get?_append_right (by omega)]
    rw [show A.length + ds.length - A.length = ds.length by omega]
    rw [List.get?_append_right (Nat.le_refl ds.length)]
    simp
  have hslice : ((A ++ (ds ++ ['t'])).drop
      (fsStart (A ++ (ds ++ ['t'])) (((A ++ (ds ++ ['t'])).length : Nat) : Int))).take
      ((((((A ++ (ds ++ ['t'])).length : Nat) : Int)) - 1).toNat -
        fsStart (A ++ (ds ++ ['t'])) (((A ++ (ds ++ ['t'])).length : Nat) : Int)) = ds := by
    rw [hstart, hp]
    rw [show A.length + ds.length - A.length = ds.length by omega]
    rw [List.drop_left]
    rw [show ds.length = ds.length from rfl]
    exact List.take_left ds ['t']
  conv_lhs => rw [fromSpecLoop.eq_def]
  rw [if_neg (by omega)]
  simp only [hget]
  rw [if_neg (by decide : ¬('t' = '\x22'))]
  simp only [if_true]
  rw [if_neg (by simp [hcap])]
  rw [hslice]
  rw [pyInt_digits hne hdig]
  rw [hstart]
  rfl

theorem fromSpecLoop_step_numC (A ds : List Char) (acc : SpecAcc)
    (hne : ds ≠ []) (hdig : ∀ c ∈ ds, c.isDigit = true)
    (hstart : fsStart (A ++ (ds ++ ['c'])) (((A ++ (ds ++ ['c'])).length : Nat) : Int) = A.length)
    (hcap : acc.arg_context.isSome = false) :
    fromSpecLoop (A ++ (ds ++ ['c'])) (((A ++ (ds ++ ['c'])).length : Nat) : Int) acc =
      fromSpecLoop (A ++ (ds ++ ['c'])) ((A.length : Int) - 1) (applyTok acc (.numC ds)) := by
  have hlen : (A ++ (ds ++ ['c'])).length = A.length + ds.length + 1 := by
    simp only [List.length_append, List.length_cons, List.length_nil]
    omega
  have hp : (((((A ++ (ds ++ ['c'])).length : Nat) : Int)) - 1).toNat = A.length + ds.length := by
    omega
  have hget : (A ++ (ds ++ ['c'])).get?
      ((((((A ++ (ds ++ ['c'])).length : Nat) : Int)) - 1).toNat) = some 'c' := by
    rw [hp, List.get?_append_right (by omega)]
    rw [show A.length + ds.length - A.length = ds.length by omega]
    rw [List.get?_append_right (Nat.le_refl ds.length)]
    simp
  have hslice : ((A ++ (ds ++ ['c'])).drop
      (fsStart (A ++ (ds ++ ['c'])) (((A ++ (ds ++ ['c'])).length : Nat) : Int))).take
      ((((((A ++ (ds ++ ['c'])).length : Nat) : Int)) - 1).toNat -
        fsStart (A ++ (ds ++ ['c'])) (((A ++ (ds ++ ['c'])).length : Nat) : Int)) = ds := by
    rw [hstart, hp]
    rw [show A.length + ds.length - A.length = ds.length by omega]
    rw [List.drop_left]
    exact List.take_left ds ['c']
  conv_lhs => rw [fromSpecLoop.eq_def]
  rw [if_neg (by omega)]
  simp only [hget]
  rw [if_neg (by decide : ¬('c' = '\x22'))]
  rw [if_neg (by decide : ¬('c' = 't'))]
  simp only [if_true]
  rw [if_neg (by simp [hcap])]
  rw [hslice]
  rw [pyInt_digits hne hdig]
  rw [hstart]
  rfl

theorem fromSpecLoop_step_comment (A cs : List Char) (acc : SpecAcc)
    (hqf : ∀ k, k < cs.length → cs.get? k ≠ some '\x22')
    (hA : A = [] ∨ A.get? (A.length - 1) = some ',') :
    fromSpecLoop (A ++ '\x22' :: (cs ++ ['\x22']))
        (((A ++ '\x22' :: (cs ++ ['\x22'])).length : Nat) : Int) acc =
      fromSpecLoop (A ++ '\x22' :: (cs ++ ['\x22'])) ((A.length : Int) - 1)
        (applyTok acc (.comment cs)) := by
  have hlen : (A ++ '\x22' :: (cs ++ ['\x22'])).length = A.length + cs.length + 2 := by
    simp only [List.length_append, List.length_cons, List.length_nil]
    omega
  have hp : (((((A ++ '\x22' :: (cs ++ ['\x22'])).length : Nat) : Int)) - 1).toNat =
      A.length + (cs.length + 1) := by omega
  have hget : (A ++ '\x22' :: (cs ++ ['\x22'])).get?
      ((((((A ++ '\x22' :: (cs ++ ['\x22'])).length : Nat) : Int)) - 1).toNat) =
        some '\x22' := by
    rw [hp, List.get?_append_right (by omega)]
    rw [show A.length + (cs.length + 1) - A.length = cs.length + 1 by omega]
    simp only [List.get?_cons_succ]
    rw [List.get?_append_right (Nat.le_refl cs.length)]
    simp
  have hrf : rfindChar (A ++ '\x22' :: (cs ++ ['\x22'])) '\x22'
      ((((((A ++ '\x22' :: (cs ++ ['\x22'])).length : Nat) : Int)) - 1).toNat) =
        some A.length := by
    rw [hp]
    rw [show A ++ '\x22' :: (cs ++ ['\x22']) = (A ++ '\x22' :: cs) ++ ['\x22'] by simp]
    rw [rfindChar_append (by simp)]
    rw [show A.length + (cs.length + 1) = A.length + 1 + cs.length by omega]
    exact rfindChar_sep hqf (Nat.le_refl cs.length)
  have hApos : A ≠ [] → 0 < A.length := by
    rcases A with _ | ⟨x, xs⟩
    · intro h; exact absurd rfl h
    · intro _; simp
  have hcond : ¬(((A.length : Nat) : Int) + 1 - 2 ≥ 0 ∧
      (A ++ '\x22' :: (cs ++ ['\x22'])).get? (((A.length : Nat) : Int) + 1 - 2).toNat ≠
        some ',') := by
    rcases hA with hA | hA
    · subst hA
      rintro ⟨h1, -⟩
      simp only [List.length_nil] at h1
      omega
    · have hpos : 0 < A.length := by
        rcases A with _ | ⟨x, xs⟩
        · simp at hA
        · simp
      rintro ⟨-, h2⟩
      apply h2
      rw [show (((A.length : Nat) : Int) + 1 - 2).toNat = A.length - 1 by omega]
      rw [List.get?_append (by omega)]
      exact hA
  have hdrop : (A ++ '\x22' :: (cs ++ ['\x22'])).drop (A.length + 1) = cs ++ ['\x22'] := by
    rw [show A ++ '\x22' :: (cs ++ ['\x22']) = (A ++ ['\x22']) ++ (cs ++ ['\x22']) by simp]
    rw [show A.length + 1 = (A ++ ['\x22']).length by simp]
    exact List.drop_left _ _
  have htake : (cs ++ ['\x22']).take cs.length = cs := List.take_left cs ['\x22']
  conv_lhs => rw [fromSpecLoop.eq_def]
  rw [if_neg (by omega)]
  simp only [hget]
  simp only [if_true]
  split
  · rename_i hqe
    rw [hrf] at hqe
    cases hqe
  · rename_i q hqe
    rw [hrf] at hqe
    rw [Option.some_inj] at hqe
    subst hqe
    rw [if_neg hcond]
    rw [hp, hdrop]
    rw [show A.length + (cs.length + 1) - (A.length + 1) = cs.length by omega]
    rw [htake]
    rw [show ((A.length : Nat) : Int) + 1 - 2 = ((A.length : Nat) : Int) - 1 by omega]
    rfl

/-- If the scan region below `pos` is comma-free, `start_pos` is `0`. -/
theorem fsStart_of_nil {d : List Char} {pos : Int} (hc : ',' ∉ d)
    (hhi : (pos - 1).toNat ≤ d.length) : fsStart d pos = 0 := by
  unfold fsStart
  rw [rfindChar_not_mem hc hhi]
  rfl

/-- If the last comma below `pos` sits at index `R.length`, `start_pos` is the
index right after it. -/
theorem fsStart_of_sep {R d : List Char} {pos : Int}
    (hc : ∀ k, k < d.length → d.get? k ≠ some ',')
    (hlo : R.length + 1 ≤ (pos - 1).toNat)
    (hhi : (pos - 1).toNat ≤ R.length + 1 + d.length) :
    fsStart (R ++ ',' :: d) pos = R.length + 1 := by
  unfold fsStart
  rw [show (pos - 1).toNat = R.length + 1 + ((pos - 1).toNat - (R.length + 1)) by omega]
  rw [rfindChar_sep hc (by omega)]
  rfl

theorem digit_ne_comma {c : Char} (h : c.isDigit = true) : c ≠ ',' := by
  intro he
  subst he
  exact absurd h (by decide)

theorem fromSpecLoop_neg (ci : List Char) (pos : Int) (acc : SpecAcc) (h : pos - 1 < 0) :
    fromSpecLoop ci pos acc = .ok acc := by
  rw [fromSpecLoop.eq_def, if_pos h]

/-! ### Spec-side reading of a token list (the wording of spec 4.1) -/

/-- The number tokens of an argspec, in source order: the first is the
singular argument, the second the plural argument. -/
def specNums (toks : List SpecTok) : List (List Char) :=
  toks.filterMap fun t => match t with | .num ds => some ds | _ => none

/-- The `c`-suffixed (context) tokens, in source order. -/
def specCtxs (toks : List SpecTok) : List (List Char) :=
  toks.filterMap fun t => match t with | .numC ds => some ds | _ => none

/-- The `t`-suffixed (total-argument-count) tokens, in source order. -/
def specTots (toks : List SpecTok) : List (List Char) :=
  toks.filterMap fun t => match t with | .numT ds => some ds | _ => none

/-- The quoted comment tokens, in source order. -/
def specComments (toks : List SpecTok) : List (List Char) :=
  toks.filterMap fun t => match t with | .comment cs => some cs | _ => none

theorem numCount_eq_length (toks : List SpecTok) :
    numCount toks = (specNums toks).length := by
  induction toks with
  | nil => rfl
  | cons t ts ih =>
    cases t <;>
      simp [numCount, specNums, List.filter_cons, List.filterMap_cons] at ih ⊢ <;>
      omega

theorem cCount_eq_length (toks : List SpecTok) :
    cCount toks = (specCtxs toks).length := by
  induction toks with
  | nil => rfl
  | cons t ts ih =>
    cases t <;>
      simp [cCount, specCtxs, List.filter_cons, List.filterMap_cons] at ih ⊢ <;>
      omega

theorem tCount_eq_length (toks : List SpecTok) :
    tCount toks = (specTots toks).length := by
  induction toks with
  | nil => rfl
  | cons t ts ih =>
    cases t <;>
      simp [tCount, specTots, List.filter_cons, List.filterMap_cons] at ih ⊢ <;>
      omega

theorem numCount_append (a b : List SpecTok) :
    numCount (a ++ b) = numCount a + numCount b := by
  simp [numCount, List.filter_append]

theorem cCount_append (a b : List SpecTok) :
    cCount (a ++ b) = cCount a + cCount b := by
  simp [cCount, List.filter_append]

theorem tCount_append (a b : List SpecTok) :
    tCount (a ++ b) = tCount a + tCount b := by
  simp [tCount, List.filter_append]

theorem numFill_lt_two (acc : SpecAcc) (h : numFill acc ≤ 1) :
    ¬(acc.arg_singular.isSome ∧ acc.arg_plural.isSome) := by
  rintro ⟨h1, h2⟩
  unfold numFill at h
  rw [if_pos h1, if_pos h2] at h
  omega

theorem numFill_applyTok_num_le (acc : SpecAcc) (ds : List Char) :
    numFill (applyTok acc (.num ds)) ≤ numFill acc + 1 := by
  rcases hs : acc.arg_singular with _ | s <;> rcases hp : acc.arg_plural with _ | p <;>
    simp [applyTok, numFill, hs, hp]

theorem applyTok_num_context (acc : SpecAcc) (ds : List Char) :
    (applyTok acc (.num ds)).arg_context = acc.arg_context := by
  rcases hs : acc.arg_singular with _ | s <;> rcases hp : acc.arg_plural with _ | p <;>
    simp [applyTok, hs, hp]

theorem applyTok_num_total (acc : SpecAcc) (ds : List Char) :
    (applyTok acc (.num ds)).total_arg_count = acc.total_arg_count := by
  rcases hs : acc.arg_singular with _ | s <;> rcases hp : acc.arg_plural with _ | p <;>
    simp [applyTok, hs, hp]

/-- The right-to-left accumulator pass over a token list computes exactly the
spec-side reading: first number token is the singular argument, second the
plural, the `c` token the context, the `t` token the total, comments collected
in reverse source order. -/
theorem foldr_applyTok_spec (toks : List SpecTok)
    (hnum : numCount toks ≤ 2) (hc : cCount toks ≤ 1) (ht : tCount toks ≤ 1) :
    toks.foldr (fun t a => applyTok a t) {} =
      { comments := (specComments toks).reverse,
        arg_singular := ((specNums toks).get? 0).map (fun ds => (digitsVal ds : Int) - 1),
        arg_plural := ((specNums toks).get? 1).map (fun ds => (digitsVal ds : Int) - 1),
        arg_context := ((specCtxs toks).get? 0).map (fun ds => (digitsVal ds : Int) - 1),
        total_arg_count := ((specTots toks).get? 0).map (fun ds => (digitsVal ds : Int)) } := by
  induction toks with
  | nil => rfl
  | cons t ts ih =>
    rw [List.foldr_cons]
    cases t with
    | num ds =>
      have e1 : numCount (SpecTok.num ds :: ts) = numCount ts + 1 := by
        simp [numCount, List.filter_cons]
      have e2 : cCount (SpecTok.num ds :: ts) = cCount ts := by
        simp [cCount, List.filter_cons]
      have e3 : tCount (SpecTok.num ds :: ts) = tCount ts := by
        simp [tCount, List.filter_cons]
      have s1 : specNums (SpecTok.num ds :: ts) = ds :: specNums ts := by
        simp [specNums, List.filterMap_cons]
      have s2 : specCtxs (SpecTok.num ds :: ts) = specCtxs ts := by
        simp [specCtxs, List.filterMap_cons]
      have s3 : specTots (SpecTok.num ds :: ts) = specTots ts := by
        simp [specTots, List.filterMap_cons]
      have s4 : specComments (SpecTok.num ds :: ts) = specComments ts := by
        simp [specComments, List.filterMap_cons]
      rw [ih (by omega) (by omega) (by omega), s1, s2, s3, s4]
      have hlen : (specNums ts).length ≤ 1 := by
        rw [← numCount_eq_length]; omega
      rcases hsn : specNums ts with _ | ⟨e0, rest⟩
      · simp [applyTok]
      · have hrest : rest = [] := by
          rw [hsn] at hlen
          simpa using hlen
        subst hrest
        simp [applyTok]
    | numC ds =>
      have e1 : numCount (SpecTok.numC ds :: ts) = numCount ts := by
        simp [numCount, List.filter_cons]
      have e2 : cCount (SpecTok.numC ds :: ts) = cCount ts + 1 := by
        simp [cCount, List.filter_cons]
      have e3 : tCount (SpecTok.numC ds :: ts) = tCount ts := by
        simp [tCount, List.filter_cons]
      have s1 : specNums (SpecTok.numC ds :: ts) = specNums ts := by
        simp [specNums, List.filterMap_cons]
      have s2 : specCtxs (SpecTok.numC ds :: ts) = ds :: specCtxs ts := by
        simp [specCtxs, List.filterMap_cons]
      have s3 : specTots (SpecTok.numC ds :: ts) = specTots ts := by
        simp [specTots, List.filterMap_cons]
      have s4 : specComments (SpecTok.numC ds :: ts) = specComments ts := by
        simp [specComments, List.filterMap_cons]
      rw [ih (by omega) (by omega) (by omega), s1, s2, s3, s4]
      simp [applyTok]
    | numT ds =>
      have e1 : numCount (SpecTok.numT ds :: ts) = numCount ts := by
        simp [numCount, List.filter_cons]
      have e2 : cCount (SpecTok.numT ds :: ts) = cCount ts := by
        simp [cCount, List.filter_cons]
      have e3 : tCount (SpecTok.numT ds :: ts) = tCount ts + 1 := by
        simp [tCount, List.filter_cons]
      have s1 : specNums (SpecTok.numT ds :: ts) = specNums ts := by
        simp [specNums, List.filterMap_cons]
      have s2 : specCtxs (SpecTok.numT ds :: ts) = specCtxs ts := by
        simp [specCtxs, List.filterMap_cons]
      have s3 : specTots (SpecTok.numT ds :: ts) = ds :: specTots ts := by
        simp [specTots, List.filterMap_cons]
      have s4 : specComments (SpecTok.numT ds :: ts) = specComments ts := by
        simp [specComments, List.filterMap_cons]
      rw [ih (by omega) (by omega) (by omega), s1, s2, s3, s4]
      simp [applyTok]
    | comment cs =>
      have e1 : numCount (SpecTok.comment cs :: ts) = numCount ts := by
        simp [numCount, List.filter_cons]
      have e2 : cCount (SpecTok.comment cs :: ts) = cCount ts := by
        simp [cCount, List.filter_cons]
      have e3 : tCount (SpecTok.comment cs :: ts) = tCount ts := by
        simp [tCount, List.filter_cons]
      have s1 : specNums (SpecTok.comment cs :: ts) = specNums ts := by
        simp [specNums, List.filterMap_cons]
      have s2 : specCtxs (SpecTok.comment cs :: ts) = specCtxs ts := by
        simp [specCtxs, List.filterMap_cons]
      have s3 : specTots (SpecTok.comment cs :: ts) = specTots ts := by
        simp [specTots, List.filterMap_cons]
      have s4 : specComments (SpecTok.comment cs :: ts) = cs :: specComments ts := by
        simp [specComments, List.filterMap_cons]
      rw [ih (by omega) (by omega) (by omega), s1, s2, s3, s4]
      simp [applyTok]

theorem renderToks_ne_nil (t : SpecTok) (ht : TokWF t) :
    ∀ ts, renderToks (t :: ts) ≠ [] := by
  intro ts
  have hrender : tokRender t ≠ [] := by
    cases t with
    | num ds => exact fun h => ht.1 h
    | numC ds => simp [tokRender]
    | numT ds => simp [tokRender]
    | comment cs => simp [tokRender]
  rcases ts with _ | ⟨v, vs⟩
  · exact hrender
  · rw [renderToks_cons t _ (by simp)]
    simp [hrender]

/-- The backward scan of a rendered token list succeeds and computes the
right-to-left fold of the tokens, provided the accumulated argument kinds stay
within capacity (at most two number arguments, one context, one total). -/
theorem fromSpecLoop_render :
    ∀ (toks : List SpecTok) (acc : SpecAcc),
      (∀ t ∈ toks, TokWF t) →
      numCount toks + numFill acc ≤ 2 →
      cCount toks + (if acc.arg_context.isSome then 1 else 0) ≤ 1 →
      tCount toks + (if acc.total_arg_count.isSome then 1 else 0) ≤ 1 →
      fromSpecLoop (renderToks toks) (((renderToks toks).length : Nat) : Int) acc =
        .ok (toks.foldr (fun t a => applyTok a t) acc) := by
  intro toks
  induction toks using List.reverseRecOn with
  | nil =>
    intro acc _ _ _ _
    rw [fromSpecLoop_neg _ _ _ (by simp only [renderToks, List.length_nil]; omega)]
    rfl
  | append_singleton ts t ih =>
    intro acc hwf hnum hc ht
    have hwt : TokWF t := hwf t (by simp)
    have hwts : ∀ u ∈ ts, TokWF u := fun u hu => hwf u (by simp [hu])
    rw [numCount_append] at hnum
    rw [cCount_append] at hc
    rw [tCount_append] at ht
    rcases ts with _ | ⟨u, us⟩
    · simp only [List.nil_append] at hnum hc ht ⊢
      cases t with
      | num ds =>
        obtain ⟨hne, hdig⟩ := hwt
        have hds1 : 0 < ds.length := List.length_pos.mpr hne
        have hnm : ',' ∉ ds := fun hm => digit_ne_comma (hdig ',' hm) rfl
        have hstart : fsStart (([] : List Char) ++ ds)
            (((([] : List Char) ++ ds).length : Nat) : Int) = ([] : List Char).length := by
          simp only [List.nil_append, List.length_nil]
          exact fsStart_of_nil hnm (by omega)
        have hcap : ¬(acc.arg_singular.isSome ∧ acc.arg_plural.isSome) := by
          apply numFill_lt_two
          have e : numCount [SpecTok.num ds] = 1 := rfl
          omega
        rw [show renderToks [SpecTok.num ds] = ([] : List Char) ++ ds from rfl]
        rw [fromSpecLoop_step_num [] ds acc hne hdig hstart hcap]
        rw [fromSpecLoop_neg _ _ _ (by simp only [List.length_nil]; omega)]
        rfl
      | numT ds =>
        obtain ⟨hne, hdig⟩ := hwt
        have hnm : ',' ∉ (ds ++ ['t']) := by
          intro hm
          rcases List.mem_append.mp hm with h | h
          · exact digit_ne_comma (hdig ',' h) rfl
          · exact absurd (List.mem_singleton.mp h) (by decide)
        have hstart : fsStart (([] : List Char) ++ (ds ++ ['t']))
            (((([] : List Char) ++ (ds ++ ['t'])).length : Nat) : Int) =
              ([] : List Char).length := by
          simp only [List.nil_append, List.length_nil]
          exact fsStart_of_nil hnm (by omega)
        have hcap : acc.total_arg_count.isSome = false := by
          rcases hx : acc.total_arg_count.isSome
          · rfl
          · exfalso
            have e : tCount [SpecTok.numT ds] = 1 := rfl
            rw [hx] at ht
            simp at ht
            omega
        rw [show renderToks [SpecTok.numT ds] = ([] : List Char) ++ (ds ++ ['t']) from rfl]
        rw [fromSpecLoop_step_numT [] ds acc hne hdig hstart hcap]
        rw [fromSpecLoop_neg _ _ _ (by simp only [List.length_nil]; omega)]
        rfl
      | numC ds =>
        obtain ⟨hne, hdig⟩ := hwt
        have hnm : ',' ∉ (ds ++ ['c']) := by
          intro hm
          rcases List.mem_append.mp hm with h | h
          · exact digit_ne_comma (hdig ',' h) rfl
          · exact absurd (List.mem_singleton.mp h) (by decide)
        have hstart : fsStart (([] : List Char) ++ (ds ++ ['c']))
            (((([] : List Char) ++ (ds ++ ['c'])).length : Nat) : Int) =
              ([] : List Char).length := by
          simp only [List.nil_append, List.length_nil]
          exact fsStart_of_nil hnm (by omega)
        have hcap : acc.arg_context.isSome = false := by
          rcases hx : acc.arg_context.isSome
          · rfl
          · exfalso
            have e : cCount [SpecTok.numC ds] = 1 := rfl
            rw [hx] at hc
            simp at hc
            omega
        rw [show renderToks [SpecTok.numC ds] = ([] : List Char) ++ (ds ++ ['c']) from rfl]
        rw [fromSpecLoop_step_numC [] ds acc hne hdig hstart hcap]
        rw [fromSpecLoop_neg _ _ _ (by simp only [List.length_nil]; omega)]
        rfl
      | comment cs =>
        have hqf : ∀ k, k < cs.length → cs.get? k ≠ some '\x22' := hwt
        rw [show renderToks [SpecTok.comment cs] =
            ([] : List Char) ++ '\x22' :: (cs ++ ['\x22']) from rfl]
        rw [fromSpecLoop_step_comment [] cs acc hqf (Or.inl rfl)]
        rw [fromSpecLoop_neg _ _ _ (by simp only [List.length_nil]; omega)]
        rfl
    · have hsplit : renderToks ((u :: us) ++ [t]) =
          (renderToks (u :: us) ++ [',']) ++ tokRender t := by
        rw [renderToks_append t (u :: us) (by simp)]
        simp [renderToks]
      have hAlast : (renderToks (u :: us) ++ [',']).get?
          ((renderToks (u :: us) ++ [',']).length - 1) = some ',' := by
        rw [show (renderToks (u :: us) ++ ([','] : List Char)).length - 1 =
            (renderToks (u :: us)).length by simp]
        rw [List.get?_append_right (Nat.le_refl _)]
        simp
      have hAlen : ((renderToks (u :: us) ++ ([','] : List Char))).length =
          (renderToks (u :: us)).length + 1 := by simp
      rw [hsplit]
      cases t with
      | num ds =>
        obtain ⟨hne, hdig⟩ := hwt
        have hds1 : 0 < ds.length := List.length_pos.mpr hne
        have hcfree : ∀ k, k < ds.length → ds.get? k ≠ some ',' := fun k hk hg =>
          digit_ne_comma (hdig ',' (List.get?_mem hg)) rfl
        have hstart : fsStart ((renderToks (u :: us) ++ [',']) ++ ds)
            ((((renderToks (u :: us) ++ [',']) ++ ds).length : Nat) : Int) =
              (renderToks (u :: us) ++ ([','] : List Char)).length := by
          rw [show ((renderToks (u :: us) ++ [',']) ++ ds : List Char) =
              renderToks (u :: us) ++ ',' :: ds by simp]
          rw [hAlen]
          have hl : (renderToks (u :: us) ++ ',' :: ds).length =
              (renderToks (u :: us)).length + 1 + ds.length := by simp; omega
          exact fsStart_of_sep hcfree (by omega) (by omega)
        have hcap : ¬(acc.arg_singular.isSome ∧ acc.arg_plural.isSome) := by
          apply numFill_lt_two
          have e : numCount [SpecTok.num ds] = 1 := rfl
          omega
        rw [show tokRender (SpecTok.num ds) = ds from rfl]
        rw [fromSpecLoop_step_num _ ds acc hne hdig hstart hcap]
        rw [hAlen]
        rw [show (((renderToks (u :: us)).length + 1 : Nat) : Int) - 1 =
            (((renderToks (u :: us)).length : Nat) : Int) by push_cast; ring]
        rw [show ((renderToks (u :: us) ++ [',']) ++ ds : List Char) =
            renderToks (u :: us) ++ (',' :: ds) by simp]
        rw [fromSpecLoop_front (',' :: ds) ((renderToks (u :: us)).length + 1) _ _ _
          (by omega) (by omega)]
        rw [ih (applyTok acc (.num ds)) hwts
          (by
            have e : numCount [SpecTok.num ds] = 1 := rfl
            have e2 := numFill_applyTok_num_le acc ds
            omega)
          (by rw [applyTok_num_context]; have e : cCount [SpecTok.num ds] = 0 := rfl; omega)
          (by rw [applyTok_num_total]; have e : tCount [SpecTok.num ds] = 0 := rfl; omega)]
        rw [List.foldr_append]
        rfl
      | numT ds =>
        obtain ⟨hne, hdig⟩ := hwt
        have hcfree : ∀ k, k < (ds ++ ['t']).length → (ds ++ ['t']).get? k ≠ some ',' := by
          intro k hk hg
          rcases List.mem_append.mp (List.get?_mem hg) with h | h
          · exact digit_ne_comma (hdig ',' h) rfl
          · exact absurd (List.mem_singleton.mp h) (by decide)
        have hstart : fsStart ((renderToks (u :: us) ++ [',']) ++ (ds ++ ['t']))
            ((((renderToks (u :: us) ++ [',']) ++ (ds ++ ['t'])).length : Nat) : Int) =
              (renderToks (u :: us) ++ ([','] : List Char)).length := by
          rw [show ((renderToks (u :: us) ++ [',']) ++ (ds ++ ['t']) : List Char) =
              renderToks (u :: us) ++ ',' :: (ds ++ ['t']) by simp]
          rw [hAlen]
          have hl : (renderToks (u :: us) ++ ',' :: (ds ++ ['t'])).length =
              (renderToks (u :: us)).length + 1 + (ds.length + 1) := by simp; omega
          have hl2 : (ds ++ ['t'] : List Char).length = ds.length + 1 := by simp
          exact fsStart_of_sep hcfree (by omega) (by omega)
        have hcap : acc.total_arg_count.isSome = false := by
          rcases hx : acc.total_arg_count.isSome
          · rfl
          · exfalso
            have e : tCount [SpecTok.numT ds] = 1 := rfl
            rw [hx] at ht
            simp at ht
            omega
        rw [show tokRender (SpecTok.numT ds) = ds ++ ['t'] from rfl]
        rw [fromSpecLoop_step_numT _ ds acc hne hdig hstart hcap]
        rw [hAlen]
        rw [show (((renderToks (u :: us)).length + 1 : Nat) : Int) - 1 =
            (((renderToks (u :: us)).length : Nat) : Int) by push_cast; ring]
        rw [show ((renderToks (u :: us) ++ [',']) ++ (ds ++ ['t']) : List Char) =
            renderToks (u :: us) ++ (',' :: (ds ++ ['t'])) by simp]
        rw [fromSpecLoop_front (',' :: (ds ++ ['t'])) ((renderToks (u :: us)).length + 1) _ _ _
          (by omega) (by omega)]
        rw [ih (applyTok acc (.numT ds)) hwts
          (by
            have e : numCount [SpecTok.numT ds] = 0 := rfl
            have e2 : numFill (applyTok acc (SpecTok.numT ds)) = numFill acc := rfl
            omega)
          (by
            have e : cCount [SpecTok.numT ds] = 0 := rfl
            have e2 : (applyTok acc (SpecTok.numT ds)).arg_context = acc.arg_context := rfl
            rw [e2]
            omega)
          (by
            have e : tCount [SpecTok.numT ds] = 1 := rfl
            have e2 : (applyTok acc (SpecTok.numT ds)).total_arg_count =
                some (digitsVal ds : Int) := rfl
            rw [e2]
            simp only [Option.isSome_some, if_true]
            omega)]
        rw [List.foldr_append]
        rfl
      | numC ds =>
        obtain ⟨hne, hdig⟩ := hwt
        have hcfree : ∀ k, k < (ds ++ ['c']).length → (ds ++ ['c']).get? k ≠ some ',' := by
          intro k hk hg
          rcases List.mem_append.mp (List.get?_mem hg) with h | h
          · exact digit_ne_comma (hdig ',' h) rfl
          · exact absurd (List.mem_singleton.mp h) (by decide)
        have hstart : fsStart ((renderToks (u :: us) ++ [',']) ++ (ds ++ ['c']))
            ((((renderToks (u :: us) ++ [',']) ++ (ds ++ ['c'])).length : Nat) : Int) =
              (renderToks (u :: us) ++ ([','] : List Char)).length := by
          rw [show ((renderToks (u :: us) ++ [',']) ++ (ds ++ ['c']) : List Char) =
              renderToks (u :: us) ++ ',' :: (ds ++ ['c']) by simp]
          rw [hAlen]
          have hl : (renderToks (u :: us) ++ ',' :: (ds ++ ['c'])).length =
              (renderToks (u :: us)).length + 1 + (ds.length + 1) := by simp; omega
          have hl2 : (ds ++ ['c'] : List Char).length = ds.length + 1 := by simp
          exact fsStart_of_sep hcfree (by omega) (by omega)
        have hcap : acc.arg_context.isSome = false := by
          rcases hx : acc.arg_context.isSome
          · rfl
          · exfalso
            have e : cCount [SpecTok.numC ds] = 1 := rfl
            rw [hx] at hc
            simp at hc
            omega
        rw [show tokRender (SpecTok.numC ds) = ds ++ ['c'] from rfl]
        rw [fromSpecLoop_step_numC _ ds acc hne hdig hstart hcap]
        rw [hAlen]
        rw [show (((renderToks (u :: us)).length + 1 : Nat) : Int) - 1 =
            (((renderToks (u :: us)).length : Nat) : Int) by push_cast; ring]
        rw [show ((renderToks (u :: us) ++ [',']) ++ (ds ++ ['c']) : List Char) =
            renderToks (u :: us) ++ (',' :: (ds ++ ['c'])) by simp]
        rw [fromSpecLoop_front (',' :: (ds ++ ['c'])) ((renderToks (u :: us)).length + 1) _ _ _
          (by omega) (by omega)]
        rw [ih (applyTok acc (.numC ds)) hwts
          (by
            have e : numCount [SpecTok.numC ds] = 0 := rfl
            have e2 : numFill (applyTok acc (SpecTok.numC ds)) = numFill acc := rfl
            omega)
          (by
            have e : cCount [SpecTok.numC ds] = 1 := rfl
            have e2 : (applyTok acc (SpecTok.numC ds)).arg_context =
                some ((digitsVal ds : Int) - 1) := rfl
            rw [e2]
            simp only [Option.isSome_some, if_true]
            omega)
          (by
            have e : tCount [SpecTok.numC ds] = 0 := rfl
            have e2 : (applyTok acc (SpecTok.numC ds)).total_arg_count =
                acc.total_arg_count := rfl
            rw [e2]
            omega)]
        rw [List.foldr_append]
        rfl
      | comment cs =>
        have hqf : ∀ k, k < cs.length → cs.get? k ≠ some '\x22' := hwt
        rw [show tokRender (SpecTok.comment cs) = '\x22' :: (cs ++ ['\x22']) from rfl]
        rw [fromSpecLoop_step_comment _ cs acc hqf (Or.inr hAlast)]
        rw [hAlen]
        rw [show (((renderToks (u :: us)).length + 1 : Nat) : Int) - 1 =
            (((renderToks (u :: us)).length : Nat) : Int) by push_cast; ring]
        rw [show ((renderToks (u :: us) ++ [',']) ++ '\x22' :: (cs ++ ['\x22']) : List Char) =
            renderToks (u :: us) ++ (',' :: '\x22' :: (cs ++ ['\x22'])) by simp]
        rw [fromSpecLoop_front (',' :: '\x22' :: (cs ++ ['\x22']))
          ((renderToks (u :: us)).length + 1) _ _ _ (by omega) (by omega)]
        rw [ih (applyTok acc (.comment cs)) hwts
          (by
            have e : numCount [SpecTok.comment cs] = 0 := rfl
            have e2 : numFill (applyTok acc (SpecTok.comment cs)) = numFill acc := rfl
            omega)
          (by
            have e : cCount [SpecTok.comment cs] = 0 := rfl
            have e2 : (applyTok acc (SpecTok.comment cs)).arg_context =
                acc.arg_context := rfl
            rw [e2]
            omega)
          (by
            have e : tCount [SpecTok.comment cs] = 0 := rfl
            have e2 : (applyTok acc (SpecTok.comment cs)).total_arg_count =
                acc.total_arg_count := rfl
            rw [e2]
            omega)]
        rw [List.foldr_append]
        rfl

/-- The `KeywordInfo` that spec 4.1 describes for a keyword plus a token
list: the first number token is the singular argument, the second the plural
argument, the `c`-suffixed number the context, the `t`-suffixed number the
total argument count; 1-based argument numbers become 0-based indices;
comments are joined with newlines in source order. -/
def specKeywordInfo (kw : String) (toks : List SpecTok) : KeywordInfo :=
  { keyword := kw,
    arg_singular :=
      (((specNums toks).get? 0).map (fun ds => (digitsVal ds : Int) - 1)).getD 0,
    arg_plural := ((specNums toks).get? 1).map (fun ds => (digitsVal ds : Int) - 1),
    arg_context := ((specCtxs toks).get? 0).map (fun ds => (digitsVal ds : Int) - 1),
    total_arg_count := ((specTots toks).get? 0).map (fun ds => (digitsVal ds : Int)),
    comment := joinNl ((specComments toks).map String.mk) }

theorem takeWhile_colon (kw rest : List Char) (hk : ':' ∉ kw) :
    (kw ++ ':' :: rest).takeWhile (· ≠ ':') = kw := by
  induction kw with
  | nil => simp [List.takeWhile_cons]
  | cons c cs ih =>
    have hc : c ≠ ':' := by intro he; exact hk (by simp [he])
    have hk2 : ':' ∉ cs := fun hm => hk (List.mem_cons_of_mem c hm)
    simp [List.takeWhile_cons, hc]
    simpa using ih hk2

theorem dropWhile_colon (kw rest : List Char) (hk : ':' ∉ kw) :
    (kw ++ ':' :: rest).dropWhile (· ≠ ':') = ':' :: rest := by
  induction kw with
  | nil => simp [List.dropWhile_cons]
  | cons c cs ih =>
    have hc : c ≠ ':' := by intro he; exact hk (by simp [he])
    have hk2 : ':' ∉ cs := fun hm => hk (List.mem_cons_of_mem c hm)
    simp [List.dropWhile_cons, hc]
    simpa using ih hk2

/-- `KeywordInfo.from_spec` on a well-formed rendered argspec parses exactly
the spec-side reading of the token list. -/
theorem from_spec_render (kw : List Char) (toks : List SpecTok)
    (hkw : ':' ∉ kw)
    (htne : toks ≠ [])
    (hwf : ∀ t ∈ toks, TokWF t)
    (hn1 : 1 ≤ numCount toks) (hn2 : numCount toks ≤ 2)
    (hc1 : cCount toks ≤ 1) (ht1 : tCount toks ≤ 1)
    (hpos : ∀ ds ∈ specNums toks, 1 ≤ digitsVal ds)
    (hcpos : ∀ ds ∈ specCtxs toks, 1 ≤ digitsVal ds)
    (hnodup : ([(specKeywordInfo (String.mk kw) toks).arg_singular] ++
        (specKeywordInfo (String.mk kw) toks).arg_plural.toList ++
        (specKeywordInfo (String.mk kw) toks).arg_context.toList).Nodup)
    (htot : ∀ tv ∈ (specKeywordInfo (String.mk kw) toks).total_arg_count,
        1 ≤ tv ∧ (specKeywordInfo (String.mk kw) toks).max_arg_number < tv) :
    from_spec (String.mk (kw ++ ':' :: renderToks toks)) =
      .ok (specKeywordInfo (String.mk kw) toks) := by
  have hrne : renderToks toks ≠ [] := by
    rcases toks with _ | ⟨a, b⟩
    · exact absurd rfl htne
    · exact renderToks_ne_nil a (hwf a (by simp)) b
  have hmain := fromSpecLoop_render toks {} hwf
    (by have e : numFill ({} : SpecAcc) = 0 := rfl; omega)
    (by have e : (({} : SpecAcc)).arg_context.isSome = false := rfl; rw [e]; simp; omega)
    (by have e : (({} : SpecAcc)).total_arg_count.isSome = false := rfl; rw [e]; simp; omega)
  rw [foldr_applyTok_spec toks hn2 hc1 ht1] at hmain
  obtain ⟨d0, nrest, hsn⟩ : ∃ d0 nrest, specNums toks = d0 :: nrest := by
    rcases hx : specNums toks with _ | ⟨d0, nrest⟩
    · exfalso
      rw [numCount_eq_length, hx] at hn1
      simp at hn1
    · exact ⟨d0, nrest, rfl⟩
  have hs0 : 1 ≤ digitsVal d0 := hpos d0 (by rw [hsn]; simp)
  have hnlen : (specNums toks).length ≤ 2 := by rw [← numCount_eq_length]; omega
  have hclen : (specCtxs toks).length ≤ 1 := by rw [← cCount_eq_length]; omega
  simp only [from_spec]
  rw [takeWhile_colon _ _ hkw, dropWhile_colon _ _ hkw]
  rw [show (':' :: renderToks toks).drop 1 = renderToks toks from rfl]
  rw [if_neg hrne]
  rw [hmain]
  rw [hsn]
  unfold specKeywordInfo at hnodup htot ⊢
  rw [hsn] at hnodup htot ⊢
  have hnrx : nrest = [] ∨ ∃ d1, nrest = [d1] := by
    rcases nrest with _ | ⟨d1, r2⟩
    · exact Or.inl rfl
    · right
      refine ⟨d1, ?_⟩
      rw [hsn] at hnlen
      simp at hnlen
      rw [hnlen]
  have hscx : specCtxs toks = [] ∨ ∃ c0, specCtxs toks = [c0] := by
    rcases hx : specCtxs toks with _ | ⟨c0, crest⟩
    · exact Or.inl rfl
    · right
      rw [hx] at hclen
      simp at hclen
      exact ⟨c0, by rw [hclen]⟩
  rcases hnrx with hnr | ⟨d1, hnr⟩ <;>
    rcases hscx with hsc | ⟨c0, hsc⟩ <;>
      rcases hst : specTots toks with _ | ⟨t0, trest⟩ <;>
        subst hnr <;>
          rw [hsc] at hnodup htot ⊢ <;>
            rw [hst] at htot <;>
              simp only [List.get?_cons_zero, List.get?_cons_succ, List.get?_nil,
                Option.map_some', Option.map_none', Option.getD_some, Option.getD_none,
                Option.toList_some, Option.toList_none] at hnodup htot ⊢
  all_goals (try have hd1 : 1 ≤ digitsVal d1 := hpos d1 (by rw [hsn]; simp))
  all_goals (try have hc0 : 1 ≤ digitsVal c0 := hcpos c0 (by rw [hsc]; simp))
  all_goals (try obtain ⟨htv1, htv2⟩ := htot _ rfl)
  all_goals simp only [Bool.false_eq_true, if_false, decide_eq_true_eq]
  all_goals (try rw [if_neg (show ¬((digitsVal d1 : Int) - 1 < 0) by omega)])
  all_goals rw [if_neg (show ¬((digitsVal d0 : Int) - 1 < 0) by omega)]
  all_goals (try rw [if_neg (show ¬((digitsVal c0 : Int) - 1 < 0) by omega)])
  all_goals rw [if_neg (not_not_intro hnodup)]
  all_goals (try rw [if_neg (show ¬((digitsVal t0 : Int) < 1) by omega)])
  all_goals (try (rw [if_neg (by
    simp only [KeywordInfo.max_arg_number, Option.getD_some, Option.getD_none] at htv2 ⊢
    push_neg
    omega)]))
  all_goals simp [joinRevComments, List.reverse_reverse]

/-! ### Keyword-table invariants of `parse_keyword_specs` -/

theorem except_bind_ok {α β : Type} (a : α) (f : α → Except String β) :
    (Except.ok a >>= f) = f a := rfl

theorem except_bind_error {α β : Type} (e : String) (f : α → Except String β) :
    ((Except.error e : Except String α) >>= f) = .error e := rfl

/-- The bucket stored for a keyword name: the first (by construction only)
association-list entry with that key. -/
def lookupBucket (parsed : List (String × List KeywordInfo)) (kw : String) :
    Option (List KeywordInfo) :=
  (parsed.find? (fun kv => kv.1 == kw)).map (fun kv => kv.2)

/-- Some spec stored under `kw` carries the discriminator `t`. -/
def bucketHas (parsed : List (String × List KeywordInfo)) (kw : String)
    (t : Option Int) : Prop :=
  ∃ b, lookupBucket parsed kw = some b ∧ ∃ k ∈ b, k.total_arg_count = t

theorem find?_map_fst {β γ : Type} (l : List (String × β)) (f : String × β → String × γ)
    (hf : ∀ x, (f x).1 = x.1) (kw : String) :
    (l.map f).find? (fun kv => kv.1 == kw) =
      (l.find? (fun kv => kv.1 == kw)).map f := by
  induction l with
  | nil => rfl
  | cons x xs ih =>
    simp only [List.map_cons, List.find?_cons]
    rw [hf x]
    rcases hb : (x.1 == kw) with _ | _
    · simp [hb, ih]
    · simp [hb]

/-- A successful `addSpec` records its argument under its keyword. -/
theorem addSpec_ok_bucketHas {parsed parsed' : List (String × List KeywordInfo)}
    {ki : KeywordInfo} (h : addSpec parsed ki = .ok parsed') :
    bucketHas parsed' ki.keyword ki.total_arg_count := by
  unfold addSpec at h
  rcases hf : parsed.find? (fun kv => kv.1 == ki.keyword) with _ | kv
  · simp only [hf] at h
    injection h with h2
    subst h2
    refine ⟨[ki], ?_, ki, by simp, rfl⟩
    unfold lookupBucket
    rw [List.find?_append, hf]
    simp
  · simp only [hf] at h
    by_cases hany : (kv.2.any fun k => k.total_arg_count == ki.total_arg_count) = true
    · rw [if_pos hany] at h
      cases h
    · rw [if_neg hany] at h
      injection h with h2
      subst h2
      have hkeep : ∀ x : String × List KeywordInfo,
          ((fun kv0 => if kv0.1 == ki.keyword then (kv0.1, kv0.2 ++ [ki]) else kv0) x).1 =
            x.1 := by
        intro x
        by_cases hx : (x.1 == ki.keyword) = true <;> simp [hx]
      have hkv0 := List.find?_some hf
      have hkveq : kv.1 = ki.keyword := by simpa using hkv0
      refine ⟨kv.2 ++ [ki], ?_, ki, by simp, rfl⟩
      unfold lookupBucket
      rw [find?_map_fst _ _ hkeep, hf]
      simp [hkveq]

/-- A successful `addSpec` never removes an existing stored spec. -/
theorem addSpec_ok_preserves {parsed parsed' : List (String × List KeywordInfo)}
    {ki : KeywordInfo} {kw : String} {t : Option Int}
    (h : addSpec parsed ki = .ok parsed') (hb : bucketHas parsed kw t) :
    bucketHas parsed' kw t := by
  obtain ⟨b, hLB, k, hk, hkt⟩ := hb
  unfold lookupBucket at hLB
  rcases hf2 : parsed.find? (fun kv => kv.1 == kw) with _ | kv2
  · rw [hf2] at hLB
    cases hLB
  · rw [hf2] at hLB
    have hb2 : kv2.2 = b := by simpa using hLB
    subst hb2
    unfold addSpec at h
    rcases hf : parsed.find? (fun kv => kv.1 == ki.keyword) with _ | kv
    · simp only [hf] at h
      injection h with h2
      subst h2
      refine ⟨kv2.2, ?_, k, hk, hkt⟩
      unfold lookupBucket
      rw [List.find?_append, hf2]
      rfl
    · simp only [hf] at h
      by_cases hany : (kv.2.any fun k => k.total_arg_count == ki.total_arg_count) = true
      · rw [if_pos hany] at h
        cases h
      · rw [if_neg hany] at h
        injection h with h2
        subst h2
        have hkeep : ∀ x : String × List KeywordInfo,
            ((fun kv0 => if kv0.1 == ki.keyword then (kv0.1, kv0.2 ++ [ki]) else kv0) x).1 =
              x.1 := by
          intro x
          by_cases hx : (x.1 == ki.keyword) = true <;> simp [hx]
        unfold bucketHas lookupBucket
        rw [find?_map_fst _ _ hkeep, hf2]
        by_cases hx : (kv2.1 == ki.keyword) = true
        · have hxeq : kv2.1 = ki.keyword := by simpa using hx
          exact ⟨kv2.2 ++ [ki], by simp [hxeq], k, List.mem_append_left _ hk, hkt⟩
        · refine ⟨kv2.2, ?_, k, hk, hkt⟩
          simp only [Option.map_some']
          rw [if_neg hx]


/-- `addSpec` fails when the keyword already stores a spec with the same
total-argument-count discriminator (also when both discriminators are
absent). -/
theorem addSpec_conflict {parsed : List (String × List KeywordInfo)} {ki : KeywordInfo}
    (hb : bucketHas parsed ki.keyword ki.total_arg_count) :
    ∃ e, addSpec parsed ki = .error e := by
  obtain ⟨b, hLB, k, hk, hkt⟩ := hb
  unfold lookupBucket at hLB
  rcases hf : parsed.find? (fun kv => kv.1 == ki.keyword) with _ | kv
  · rw [hf] at hLB
    cases hLB
  · rw [hf] at hLB
    have hb2 : kv.2 = b := by simpa using hLB
    subst hb2
    have hany : (kv.2.any fun k0 => k0.total_arg_count == ki.total_arg_count) = true := by
      rw [List.any_eq_true]
      exact ⟨k, hk, by simp [hkt]⟩
    refine ⟨match ki.total_arg_count with
      | none => "A keyword with no total argument count has been specified more than once."
      | some _ => "A keyword with a total argument count has been specified more than once.",
      ?_⟩
    unfold addSpec
    simp only [hf]
    rw [if_pos hany]

/-- Keys of the parsed table are pairwise distinct. -/
def keysUnique (parsed : List (String × List KeywordInfo)) : Prop :=
  (parsed.map Prod.fst).Nodup

/-- No bucket stores two specs with the same discriminator. -/
def bucketsDistinct (parsed : List (String × List KeywordInfo)) : Prop :=
  ∀ kv ∈ parsed, kv.2.Pairwise (fun x y => x.total_arg_count ≠ y.total_arg_count)

theorem addSpec_ok_invariant {parsed parsed' : List (String × List KeywordInfo)}
    {ki : KeywordInfo} (h : addSpec parsed ki = .ok parsed')
    (hu : keysUnique parsed) (hd : bucketsDistinct parsed) :
    keysUnique parsed' ∧ bucketsDistinct parsed' := by
  unfold addSpec at h
  rcases hf : parsed.find? (fun kv => kv.1 == ki.keyword) with _ | kv
  · simp only [hf] at h
    injection h with h2
    subst h2
    constructor
    · unfold keysUnique at hu ⊢
      rw [List.map_append, List.nodup_append]
      refine ⟨hu, by simp, ?_⟩
      intro a ha
      simp only [List.map_cons, List.map_nil, List.mem_singleton]
      intro hcontr
      subst hcontr
      rw [List.mem_map] at ha
      obtain ⟨kv0, hkv0, hfst⟩ := ha
      have hnone := List.find?_eq_none.mp hf kv0 hkv0
      apply hnone
      simp [hfst]
    · intro kv0 hkv0
      rcases List.mem_append.mp hkv0 with hm | hm
      · exact hd kv0 hm
      · rw [List.mem_singleton] at hm
        subst hm
        simp
  · simp only [hf] at h
    by_cases hany : (kv.2.any fun k => k.total_arg_count == ki.total_arg_count) = true
    · rw [if_pos hany] at h
      cases h
    · rw [if_neg hany] at h
      injection h with h2
      subst h2
      have hkeep : ∀ x : String × List KeywordInfo,
          ((fun kv0 => if kv0.1 == ki.keyword then (kv0.1, kv0.2 ++ [ki]) else kv0) x).1 =
            x.1 := by
        intro x
        by_cases hx : (x.1 == ki.keyword) = true <;> simp [hx]
      constructor
      · unfold keysUnique at hu ⊢
        rw [List.map_map]
        have hcomp : (Prod.fst ∘ fun kv0 : String × List KeywordInfo =>
            if kv0.1 == ki.keyword then (kv0.1, kv0.2 ++ [ki]) else kv0) = Prod.fst := by
          funext x
          exact hkeep x
        rw [hcomp]
        exact hu
      · intro kv0 hkv0
        rw [List.mem_map] at hkv0
        obtain ⟨kv1, hkv1, hfkv⟩ := hkv0
        by_cases hx : (kv1.1 == ki.keyword) = true
        · have hkveq : kv.1 = ki.keyword := by simpa using (List.find?_some hf)
          have hkv1eq : kv1.1 = ki.keyword := by simpa using hx
          have hkvmem : kv ∈ parsed := List.mem_of_find?_eq_some hf
          have hsame : kv1 = kv :=
            List.inj_on_of_nodup_map hu hkv1 hkvmem (hkv1eq.trans hkveq.symm)
          rw [← hfkv, if_pos hx]
          have hany2 : ∀ k0 ∈ kv.2, ¬(k0.total_arg_count == ki.total_arg_count) = true := by
            simpa [List.any_eq_true] using hany
          rw [List.pairwise_append]
          refine ⟨hd kv1 hkv1, by simp, ?_⟩
          intro x hxm y hym
          rw [List.mem_singleton] at hym
          subst hym
          intro hcontr
          exact (hany2 x (hsame ▸ hxm)) (by simp [hcontr])
        · rw [← hfkv, if_neg hx]
          exact hd kv1 hkv1

/-- Stored specs survive the rest of the parsing fold. -/
theorem foldSpecs_preserves (v : List String) :
    ∀ (p p' : List (String × List KeywordInfo)) (kw : String) (t : Option Int),
      bucketHas p kw t →
      v.foldlM (fun parsed spec => do addSpec parsed (← from_spec spec)) p = .ok p' →
      bucketHas p' kw t := by
  induction v with
  | nil =>
    intro p p' kw t hb h
    rw [List.foldlM_nil] at h
    have h2 : (Except.ok p : Except String (List (String × List KeywordInfo))) = .ok p' := h
    injection h2 with h3
    subst h3
    exact hb
  | cons s ss ih =>
    intro p p' kw t hb h
    rw [List.foldlM_cons] at h
    rcases hfs : from_spec s with e | ki
    · rw [hfs] at h
      cases (show (Except.error e : Except String (List (String × List KeywordInfo))) =
        .ok p' from h)
    · rw [hfs] at h
      replace h : (addSpec p ki >>= fun b' =>
          ss.foldlM (fun parsed spec => do addSpec parsed (← from_spec spec)) b') =
            .ok p' := h
      rcases ha : addSpec p ki with e2 | p2
      · rw [ha] at h
        cases (show (Except.error e2 : Except String (List (String × List KeywordInfo))) =
          .ok p' from h)
      · rw [ha] at h
        exact ih p2 p' kw t (addSpec_ok_preserves ha hb) h

/-- The table invariants hold throughout the parsing fold. -/
theorem foldSpecs_invariant (v : List String) :
    ∀ (p p' : List (String × List KeywordInfo)),
      keysUnique p → bucketsDistinct p →
      v.foldlM (fun parsed spec => do addSpec parsed (← from_spec spec)) p = .ok p' →
      keysUnique p' ∧ bucketsDistinct p' := by
  induction v with
  | nil =>
    intro p p' hu hd h
    rw [List.foldlM_nil] at h
    have h2 : (Except.ok p : Except String (List (String × List KeywordInfo))) = .ok p' := h
    injection h2 with h3
    subst h3
    exact ⟨hu, hd⟩
  | cons s ss ih =>
    intro p p' hu hd h
    rw [List.foldlM_cons] at h
    rcases hfs : from_spec s with e | ki
    · rw [hfs] at h
      cases (show (Except.error e : Except String (List (String × List KeywordInfo))) =
        .ok p' from h)
    · rw [hfs] at h
      replace h : (addSpec p ki >>= fun b' =>
          ss.foldlM (fun parsed spec => do addSpec parsed (← from_spec spec)) b') =
            .ok p' := h
      rcases ha : addSpec p ki with e2 | p2
      · rw [ha] at h
        cases (show (Except.error e2 : Except String (List (String × List KeywordInfo))) =
          .ok p' from h)
      · rw [ha] at h
        obtain ⟨hu2, hd2⟩ := addSpec_ok_invariant ha hu hd
        exact ih p2 p' hu2 hd2 h

/-- The per-bucket order the spec describes: discriminated specs first in
strictly ascending discriminator order, then the (single) undiscriminated
spec. -/
def specBefore (a b : KeywordInfo) : Prop :=
  match a.total_arg_count, b.total_arg_count with
  | some i, some j => i < j
  | some _, none => True
  | none, _ => False

theorem foldlM_append_error {α β : Type} (f : β → α → Except String β) (b : β)
    (l₁ l₂ : List α) (e : String) (h : l₁.foldlM f b = .error e) :
    (l₁ ++ l₂).foldlM f b = .error e := by
  rw [List.foldlM_append, h]
  rfl

theorem foldlM_append_okv {α β : Type} (f : β → α → Except String β) (b b2 : β)
    (l₁ l₂ : List α) (h : l₁.foldlM f b = .ok b2) :
    (l₁ ++ l₂).foldlM f b = l₂.foldlM f b2 := by
  rw [List.foldlM_append, h]
  rfl

theorem foldlM_cons_error {α β : Type} (f : β → α → Except String β) (b : β) (x : α)
    (l : List α) (e : String) (h : f b x = .error e) :
    (x :: l).foldlM f b = .error e := by
  rw [List.foldlM_cons, h]
  rfl

theorem foldlM_cons_okv {α β : Type} (f : β → α → Except String β) (b b2 : β) (x : α)
    (l : List α) (h : f b x = .ok b2) :
    (x :: l).foldlM f b = l.foldlM f b2 := by
  rw [List.foldlM_cons, h]
  rfl

/-- Two specs sharing a keyword and a discriminator anywhere in the input make
`parse_keyword_specs` fail. -/
theorem c5_duplicates (u v w : List String) (s1 s2 : String) (k1 k2 : KeywordInfo)
    (h1 : from_spec s1 = .ok k1) (h2 : from_spec s2 = .ok k2)
    (hk : k1.keyword = k2.keyword) (ht : k1.total_arg_count = k2.total_arg_count) :
    ∃ e, parse_keyword_specs (u ++ s1 :: (v ++ s2 :: w)) = .error e := by
  have hstep1 : ∀ p : List (String × List KeywordInfo),
      (fun parsed spec => do addSpec parsed (← from_spec spec)) p s1 = addSpec p k1 := by
    intro p
    show (from_spec s1 >>= fun x => addSpec p x) = addSpec p k1
    rw [h1]
    rfl
  have hstep2 : ∀ p : List (String × List KeywordInfo),
      (fun parsed spec => do addSpec parsed (← from_spec spec)) p s2 = addSpec p k2 := by
    intro p
    show (from_spec s2 >>= fun x => addSpec p x) = addSpec p k2
    rw [h2]
    rfl
  rcases hu : u.foldlM (fun parsed spec => do addSpec parsed (← from_spec spec)) [] with
    e0 | p0
  · refine ⟨e0, ?_⟩
    unfold parse_keyword_specs
    rw [foldlM_append_error _ _ _ _ _ hu]
    rfl
  · rcases ha1 : addSpec p0 k1 with e1 | p1
    · refine ⟨e1, ?_⟩
      unfold parse_keyword_specs
      rw [foldlM_append_okv _ _ _ _ _ hu]
      rw [foldlM_cons_error _ _ _ _ _ ((hstep1 p0).trans ha1)]
      rfl
    · rcases hv : v.foldlM (fun parsed spec => do addSpec parsed (← from_spec spec)) p1 with
        e2 | p2
      · refine ⟨e2, ?_⟩
        unfold parse_keyword_specs
        rw [foldlM_append_okv _ _ _ _ _ hu]
        rw [foldlM_cons_okv _ _ _ _ _ ((hstep1 p0).trans ha1)]
        rw [foldlM_append_error _ _ _ _ _ hv]
        rfl
      · have hb1 : bucketHas p1 k1.keyword k1.total_arg_count := addSpec_ok_bucketHas ha1
        have hb2 := foldSpecs_preserves v p1 p2 _ _ hb1 hv
        rw [hk, ht] at hb2
        obtain ⟨e3, he3⟩ := addSpec_conflict hb2
        refine ⟨e3, ?_⟩
        unfold parse_keyword_specs
        rw [foldlM_append_okv _ _ _ _ _ hu]
        rw [foldlM_cons_okv _ _ _ _ _ ((hstep1 p0).trans ha1)]
        rw [foldlM_append_okv _ _ _ _ _ hv]
        rw [foldlM_cons_error _ _ _ _ _ ((hstep2 p2).trans he3)]
        rfl

/-- On success every stored bucket is ordered as the spec describes. -/
theorem c5_order (specs : List String) (m : List (String × List KeywordInfo))
    (h : parse_keyword_specs specs = .ok m) :
    ∀ kv ∈ m, kv.2.Pairwise specBefore := by
  unfold parse_keyword_specs at h
  rcases hf : specs.foldlM (fun parsed spec => do addSpec parsed (← from_spec spec)) [] with
    e | p
  · rw [hf] at h
    cases (show (Except.error e : Except String (List (String × List KeywordInfo))) =
      .ok m from h)
  · rw [hf] at h
    replace h : (Except.ok (p.map fun kv => (kv.1, sortSpecs kv.2)) :
        Except String (List (String × List KeywordInfo))) = .ok m := h
    injection h with h2
    subst h2
    obtain ⟨hu, hd⟩ := foldSpecs_invariant specs [] p (by simp [keysUnique])
      (fun kv hkv => absurd hkv (List.not_mem_nil kv)) hf
    intro kv hkv
    rw [List.mem_map] at hkv
    obtain ⟨kv0, hkv0, rfl⟩ := hkv
    have hpair : kv0.2.Pairwise (fun x y => x.total_arg_count ≠ y.total_arg_count) :=
      hd kv0 hkv0
    have hsorted : List.Sorted specLe (sortSpecs kv0.2) := List.sorted_insertionSort _ _
    have hperm : (sortSpecs kv0.2).Perm kv0.2 := List.perm_insertionSort _ _
    have hsymm : ∀ {x y : KeywordInfo}, x.total_arg_count ≠ y.total_arg_count →
        y.total_arg_count ≠ x.total_arg_count := fun hab he => hab he.symm
    have hpair2 : (sortSpecs kv0.2).Pairwise
        (fun x y => x.total_arg_count ≠ y.total_arg_count) :=
      (hperm.pairwise_iff hsymm).mpr hpair
    refine List.Pairwise.imp ?_ (List.Pairwise.and hsorted hpair2)
    intro a b hab
    obtain ⟨hle, hne⟩ := hab
    rcases ha : a.total_arg_count with _ | i <;> rcases hb : b.total_arg_count with _ | j
    · rw [ha, hb] at hne
      exact absurd rfl hne
    · unfold specLe at hle
      simp only [ha, hb] at hle
      try exact hle.elim
    · unfold specBefore
      simp only [ha, hb]
      try trivial
    · unfold specLe at hle
      unfold specBefore
      simp only [ha, hb] at hle ⊢
      have hij : i ≠ j := fun he => hne (by rw [ha, hb, he])
      try omega

/-- **C5**: parsing a keyword-specification list fails whenever two specs
share a keyword name and a total-argument-count discriminator, including two
specs that both omit the discriminator; on success every stored bucket is
ordered with discriminated specs first in strictly ascending discriminator
order followed by the single undiscriminated spec (if any); and a parsed
spec string is read losslessly: the first number token is the singular
argument, the second the plural, the `c` token the context, the `t` token the
total count, with 1-based argument numbers stored 0-based and comments joined
in source order. -/
theorem claim_C5 :
    (∀ (u v w : List String) (s1 s2 : String) (k1 k2 : KeywordInfo),
        from_spec s1 = .ok k1 → from_spec s2 = .ok k2 →
        k1.keyword = k2.keyword → k1.total_arg_count = k2.total_arg_count →
        ∃ e, parse_keyword_specs (u ++ s1 :: (v ++ s2 :: w)) = .error e) ∧
    (∀ (specs : List String) (m : List (String × List KeywordInfo)),
        parse_keyword_specs specs = .ok m →
        ∀ kv ∈ m, kv.2.Pairwise specBefore) ∧
    (∀ (kw : List Char) (toks : List SpecTok),
        ':' ∉ kw → toks ≠ [] → (∀ t ∈ toks, TokWF t) →
        1 ≤ numCount toks → numCount toks ≤ 2 → cCount toks ≤ 1 → tCount toks ≤ 1 →
        (∀ ds ∈ specNums toks, 1 ≤ digitsVal ds) →
        (∀ ds ∈ specCtxs toks, 1 ≤ digitsVal ds) →
        ([(specKeywordInfo (String.mk kw) toks).arg_singular] ++
            (specKeywordInfo (String.mk kw) toks).arg_plural.toList ++
            (specKeywordInfo (String.mk kw) toks).arg_context.toList).Nodup →
        (∀ tv ∈ (specKeywordInfo (String.mk kw) toks).total_arg_count,
            1 ≤ tv ∧ (specKeywordInfo (String.mk kw) toks).max_arg_number < tv) →
        from_spec (String.mk (kw ++ ':' :: renderToks toks)) =
          .ok (specKeywordInfo (String.mk kw) toks)) :=
  ⟨c5_duplicates, c5_order, from_spec_render⟩

/-- Concrete instantiation of all three parts of C5: two undiscriminated
specs for `_` fail to parse; the bucket parsed from `_:1` is ordered; and
`_:1` parses to singular index 0. -/
theorem claim_C5_witness :
    (∃ e, parse_keyword_specs ["_:2,1", "_:1,2"] = .error e) ∧
    ([({ keyword := "_", arg_singular := 0 } : KeywordInfo)].Pairwise specBefore) ∧
    from_spec (String.mk (['_'] ++ ':' :: renderToks [SpecTok.num ['1']])) =
      .ok (specKeywordInfo (String.mk ['_']) [SpecTok.num ['1']]) := by
  refine ⟨?_, ?_, ?_⟩
  · exact claim_C5.1 [] [] [] "_:2,1" "_:1,2"
      { keyword := "_", arg_singular := 1, arg_plural := some 0 }
      { keyword := "_", arg_singular := 0, arg_plural := some 1 }
      (by
        simp [from_spec, fromSpecLoop, rfindChar, pyInt, digitsVal, pyIsSpaceChar,
          joinRevComments]
        rfl)
      (by
        simp [from_spec, fromSpecLoop, rfindChar, pyInt, digitsVal, pyIsSpaceChar,
          joinRevComments]
        rfl)
      rfl rfl
  · have hfs : from_spec "_:1" = .ok { keyword := "_", arg_singular := 0 } := by
      simp [from_spec, fromSpecLoop, rfindChar, pyInt, digitsVal, pyIsSpaceChar,
        joinRevComments]
      rfl
    have hstep : (fun parsed spec => do addSpec parsed (← from_spec spec))
        ([] : List (String × List KeywordInfo)) "_:1" =
          addSpec [] { keyword := "_", arg_singular := 0 } := by
      show (from_spec "_:1" >>= fun x => addSpec [] x) =
        addSpec [] { keyword := "_", arg_singular := 0 }
      rw [hfs]
      rfl
    have hparse : parse_keyword_specs ["_:1"] =
        .ok [("_", [{ keyword := "_", arg_singular := 0 }])] := by
      unfold parse_keyword_specs
      rw [foldlM_cons_okv _ _ _ _ _ (hstep.trans (by rfl))]
      rfl
    exact claim_C5.2.1 ["_:1"] [("_", [{ keyword := "_", arg_singular := 0 }])] hparse
      ("_", [{ keyword := "_", arg_singular := 0 }]) (by simp)
  · exact claim_C5.2.2 ['_'] [SpecTok.num ['1']] (by decide) (by simp)
      (by
        intro t ht
        rw [List.mem_singleton] at ht
        subst ht
        exact ⟨by simp, by decide⟩)
      (by decide) (by decide) (by decide) (by decide) (by decide) (by decide) (by decide)
      (by intro tv htv; simp [specKeywordInfo, specTots] at htv)

end Redgettext
